import Mathlib

/-!
Verification of the cuuats.datamodel query/object-mapping layer.

This file is a shallow embedding, in Lean 4, of the parts of the
`cuuats.datamodel` Python package that the specified properties are about:

* `cuuats/datamodel/query.py` — the condition algebra (`Q`, `SQLCondition`),
  its `simplify` normalization, the `SQLCompiler`, and the `QuerySet`
  cloning/prefetching behavior;
* `cuuats/datamodel/scales.py` — `BreaksScale`;
* `cuuats/datamodel/fields.py` — `BaseField.round`/`has_changed`/`validate`
  and `StringField.validate`;
* `cuuats/datamodel/features.py` — `BaseFeature.serialize`/`diff`/`save`.

Python dictionaries appearing in the embedded code are modelled as
association lists, Python `None` as dedicated null constructors or
`Option`, and Python numbers as `ℚ` (the values appearing in the claims
are exactly representable).  Iteration order of keyword-argument
dictionaries is modelled by the order of the corresponding list.
-/

namespace CUUATS

/-! ## Values appearing in SQL conditions (query.py)

`SQLCondition` values can be `None`, numbers, strings, or lists/tuples
(for `IN`).  Coded-domain `D` values are resolved through the external
workspace and do not occur in the properties below, so they are not
modelled. -/

mutual
/-- A value stored in a `SQLCondition` (query.py line 24). -/
inductive SqlVal where
  | vnull : SqlVal
  | vint : Int → SqlVal
  | vstr : String → SqlVal
  | vlist : SqlValList → SqlVal
deriving Repr, DecidableEq

/-- A list of `SqlVal`s (a Python list/tuple used with the `in` operator). -/
inductive SqlValList where
  | nil : SqlValList
  | cons : SqlVal → SqlValList → SqlValList
deriving Repr, DecidableEq
end

/-- `SQLCondition.OPERATORS` (query.py lines 11-20): map from operator
token to SQL operator. -/
def OPERATORS : List (String × String) :=
  [("contains", "LIKE"), ("eq", "="), ("exact", "IS"), ("gt", ">"),
   ("in", "IN"), ("lt", "<"), ("gte", ">="), ("lte", "<=")]

/-- The keys of `SQLCondition.OPERATORS`. -/
def opKeys : List String := OPERATORS.map Prod.fst

/-- A leaf comparison: `SQLCondition` (query.py lines 9-36).  The
`operator` field stores the SQL operator string, as in the source. -/
structure SQLCondition where
  field_name : String
  operator : String
  value : SqlVal
deriving Repr, DecidableEq

/-- `SQLCondition.__init__` (query.py lines 22-32): when no operator token
is given, `exact` is used for null values and `eq` otherwise; the token is
then mapped through `OPERATORS`. -/
def mkCondition (field_name : String) (value : SqlVal) (op_name : Option String) :
    SQLCondition :=
  let key := match op_name with
    | none => match value with
      | .vnull => "exact"
      | _ => "eq"
    | some o => o
  { field_name := field_name,
    operator := ((OPERATORS.lookup key).getD ""),
    value := value }

/-! ## Condition trees (class `Q`, query.py lines 39-177)

A `Q` object has an `operator` (`'AND'`/`'OR'`), a `negated` flag, an
optional `rel_name` relationship scope, and an ordered list of children,
each either a nested `Q` or a `SQLCondition` leaf.  `QT`/`QL` below is
that tree; `QL` is a bespoke list so that all recursions stay structural. -/

mutual
/-- A child of a `Q` node: either a nested `Q` (`node`) or a
`SQLCondition` leaf (`cond`). -/
inductive QT where
  | cond : SQLCondition → QT
  | node : String → Bool → Option String → QL → QT
deriving Repr, DecidableEq

/-- The ordered `children` list of a `Q` object. -/
inductive QL where
  | nil : QL
  | cons : QT → QL → QL
deriving Repr, DecidableEq
end

namespace QL

/-- Concatenation of children lists (`list.extend` / `+`). -/
def append : QL → QL → QL
  | .nil, ys => ys
  | .cons x xs, ys => .cons x (append xs ys)

/-- `len(children)`. -/
def lengthL : QL → Nat
  | .nil => 0
  | .cons _ xs => 1 + lengthL xs

/-- Build a `QL` from a Lean list. -/
def ofList : List QT → QL
  | [] => .nil
  | x :: xs => .cons x (ofList xs)

end QL

mutual
/-- Number of tree vertices; used as the fuel bound for the iterative
loops of `simplify` and for `compile`. -/
def qsize : QT → Nat
  | .cond _ => 1
  | .node _ _ _ cs => 1 + qsizeL cs

/-- Total number of tree vertices in a children list. -/
def qsizeL : QL → Nat
  | .nil => 0
  | .cons c cs => qsize c + qsizeL cs
end

/-- `Q.__and__` / `Q._combine` (query.py lines 48-49, 100-104): a fresh
node with operator `AND` and the two operands as children.  (`_clone` is
the identity under value semantics.) -/
def qand (a b : QT) : QT := .node "AND" false none (.cons a (.cons b .nil))

/-- `Q.__or__` / `Q._combine` (query.py lines 51-52, 100-104). -/
def qor (a b : QT) : QT := .node "OR" false none (.cons a (.cons b .nil))

/-- `Q.__invert__` (query.py lines 54-57): clone with `negated` flipped.
(`~` is only applied to `Q` objects, never to bare conditions.) -/
def qnot : QT → QT
  | .cond c => .cond c
  | .node op neg rel cs => .node op (!neg) rel cs

/-- One step of splitting a character list at the first `'__'`
separator: the segment before it and, when a separator was found, the
remainder after it. -/
def splitSeg : List Char → List Char × Option (List Char)
  | [] => ([], none)
  | '_' :: '_' :: rest => ([], some rest)
  | c :: rest =>
    let (seg, r) := splitSeg rest
    (c :: seg, r)

/-- `field_info.split('__')` over character lists (leftmost,
non-overlapping separators, as in Python `str.split`); the fuel is
bounded by the string length. -/
def splitParts (fuel : Nat) (cs : List Char) : List (List Char) :=
  match fuel with
  | 0 => [cs]
  | fuel+1 =>
    match splitSeg cs with
    | (seg, none) => [seg]
    | (seg, some rest) => seg :: splitParts fuel rest

/-- `Q._parse_field_info` (query.py lines 80-86): split on `'__'`, pop a
trailing operator token if present, pop the field name; the remaining
segments are relationship traversals.  (`String.splitOn` is reimplemented
via `splitParts` so that the definition evaluates by kernel reduction.) -/
def parseFieldInfo (s : String) : List String × String × Option String :=
  let parts := (splitParts s.data.length s.data).map (fun l => String.mk l)
  let (parts, op_name) :=
    if opKeys.contains (parts.getLastD "") then
      (parts.dropLast, some (parts.getLastD ""))
    else (parts, none)
  match parts.getLast? with
  | some f => (parts.dropLast, f, op_name)
  | none => ([], "", op_name)

/-- The chain of relationship-scoped nodes built by the `for rel in rels`
loop of `Q._parse_children` (query.py lines 72-78): each traversal
segment wraps a fresh `AND` node tagged with that relationship. -/
def chainOf (rels : List String) (c : SQLCondition) : QT :=
  rels.foldr (fun r inner => .node "AND" false (some r) (.cons inner .nil)) (.cond c)

/-- `Q.__init__` / `Q._parse_children` (query.py lines 41-46, 69-78): a
flat list of `field_info → value` pairs becomes an `AND` node with one
child (a condition or a relationship chain) per pair. -/
def mkQ (filters : List (String × SqlVal)) : QT :=
  .node "AND" false none (QL.ofList (filters.map (fun p =>
    let (rels, f, op) := parseFieldInfo p.1
    chainOf rels (mkCondition f p.2 op))))

/-! ### `simplify` (query.py lines 141-177) and its helper predicates -/

/-- `Q._op_match` (query.py lines 106-107) of a child tree:
`op == self.operator or len(self) == 1`.  Only ever asked of `Q`
objects, so the `cond` case is unreachable. -/
def opMatchQ (op : String) : QT → Bool
  | .cond _ => false
  | .node op2 _ _ cs => op == op2 || cs.lengthL == 1

/-- `negated` of a child `Q`. -/
def negOf : QT → Bool
  | .cond _ => false
  | .node _ neg _ _ => neg

/-- `rel_name` of a child `Q`. -/
def relOf : QT → Option String
  | .cond _ => none
  | .node _ _ rel _ => rel

/-- `children` of a child `Q`. -/
def childrenOf : QT → QL
  | .cond _ => .nil
  | .node _ _ _ cs => cs

/-- `Q._can_merge` (query.py lines 109-111). -/
def canMerge (a b : QT) (op : String) : Bool :=
  opMatchQ op a && opMatchQ op b && (negOf a == negOf b) && (relOf a == relOf b)

/-- `Q._can_append` (query.py lines 113-115). -/
def canAppend (a b : QT) (op : String) : Bool :=
  opMatchQ op a && !(negOf a) && (relOf a == none || relOf a == relOf b)

/-- `Q._merge` (query.py lines 117-121): clone of `a` with `b`'s children
appended and the operator replaced. -/
def mergeQ (a b : QT) (op : String) : QT :=
  .node op (negOf a) (relOf a) ((childrenOf a).append (childrenOf b))

/-- `Q._append` (query.py lines 123-130): clone of `a` with a clone of
`b` appended as a child; the child's `rel_name` is cleared when `a`
itself has a relationship scope. -/
def appendQ (a b : QT) (op : String) : QT :=
  let child := if (relOf a).isSome then
      (match b with
        | .cond c => .cond c
        | .node op2 neg2 _ cs2 => .node op2 neg2 none cs2)
    else b
  .node op (negOf a) (relOf a) ((childrenOf a).append (.cons child .nil))

/-- `Q._merge_or_append` (query.py lines 132-139). -/
def mergeOrAppend (a b : QT) (op : String) : Option QT :=
  if canMerge a b op then some (mergeQ a b op)
  else if canAppend a b op then some (appendQ a b op)
  else if canAppend b a op then some (appendQ b a op)
  else none

/-- One step of the pairwise scan of `simplify` (query.py lines 150-158):
try to combine a fixed child `a` with each later sibling in order; on
success return the combined node and the remaining later siblings. -/
def findWith (op : String) (a : QT) : QL → Option (QT × QL)
  | .nil => none
  | .cons b rest =>
    match a, b with
    | .node o1 n1 r1 c1, .node o2 n2 r2 c2 =>
      match mergeOrAppend (.node o1 n1 r1 c1) (.node o2 n2 r2 c2) op with
      | some n => some (n, rest)
      | none =>
        match findWith op (.node o1 n1 r1 c1) rest with
        | some (n, r) => some (n, .cons b r)
        | none => none
    | _, _ =>
      match findWith op a rest with
      | some (n, r) => some (n, .cons b r)
      | none => none

/-- The `itertools.combinations` scan of `simplify` (query.py lines
147-158): find the first pair `(a, b)` of `Q` children (in combination
order) that merges or appends; return the new child and the other
children in their original order.  Because a successful combination
shrinks the children list, the surrounding `while num_children <
len(q.children)` loop performs at most one combination. -/
def findCombine (op : String) : QL → Option (QT × QL)
  | .nil => none
  | .cons a rest =>
    match findWith op a rest with
    | some (n, r) => some (n, r)
    | none =>
      match findCombine op rest with
      | some (n, r) => some (n, .cons a r)
      | none => none

/-- `q._can_merge(child, q.operator)` as used by the parent loop of
`simplify` (query.py line 166): `q._op_match(q.operator)` is always true,
so this is the child's `_op_match` plus equal negation and scope. -/
def canMergeParent (op : String) (neg : Bool) (rel : Option String) : QT → Bool
  | .cond _ => false
  | .node op2 neg2 rel2 cs2 =>
    (op == op2 || cs2.lengthL == 1) && (neg == neg2) && (rel == rel2)

/-- The children kept by one pass of the parent-merge loop (query.py
lines 164-169): those that are not merged into the parent. -/
def passKept (op : String) (neg : Bool) (rel : Option String) : QL → QL
  | .nil => .nil
  | .cons c cs =>
    if canMergeParent op neg rel c then passKept op neg rel cs
    else .cons c (passKept op neg rel cs)

/-- The grandchildren promoted by one pass of the parent-merge loop:
`q._merge(child, ...)` extends the parent's children with the merged
child's children, in the order the children are visited. -/
def passPromoted (op : String) (neg : Bool) (rel : Option String) : QL → QL
  | .nil => .nil
  | .cons c cs =>
    if canMergeParent op neg rel c then
      (childrenOf c).append (passPromoted op neg rel cs)
    else passPromoted op neg rel cs

/-- Whether some child is merged into the parent during a pass
(`parent_dirty` from the merge half of the loop). -/
def anyMergeable (op : String) (neg : Bool) (rel : Option String) : QL → Bool
  | .nil => false
  | .cons c cs => canMergeParent op neg rel c || anyMergeable op neg rel cs

/-- The `while parent_dirty` loop of `simplify` (query.py lines 160-175),
with explicit fuel.  Each iteration (a) merges every mergeable `Q` child
of the snapshot into the parent (the `for child in q.children[:]` pass;
kept children stay in order, promoted grandchildren are appended), and
(b) collapses a non-negated, unscoped parent with exactly one remaining
`Q` child down to that child.  The loop repeats while either fired.
Python's identity-based removal (`c is not child`) is modelled
positionally; within one `simplify` call all `Q` children are distinct
objects (each is freshly produced by a clone or a recursive `simplify`).
Every iteration that continues strictly decreases total tree size, so
the `1 + qsizeL` fuel used by `parentLoop` below never runs out. -/
def parentLoopF : Nat → String → Bool → Option String → QL → QT
  | 0, op, neg, rel, cs => .node op neg rel cs
  | fuel+1, op, neg, rel, cs =>
    let dirty := anyMergeable op neg rel cs
    let cs' := (passKept op neg rel cs).append (passPromoted op neg rel cs)
    match cs' with
    | .cons (QT.node op2 neg2 rel2 cs2) .nil =>
      if !neg && rel == none then parentLoopF fuel op2 neg2 rel2 cs2
      else if dirty then parentLoopF fuel op neg rel cs'
      else .node op neg rel cs'
    | _ =>
      if dirty then parentLoopF fuel op neg rel cs'
      else .node op neg rel cs'

/-- The parent-merge/unwrap loop with enough fuel to reach its fixed
point. -/
def parentLoop (op : String) (neg : Bool) (rel : Option String) (cs : QL) : QT :=
  parentLoopF (1 + qsizeL cs) op neg rel cs

mutual
/-- `Q.simplify` (query.py lines 141-177): recursively simplify `Q`
children, perform the (single, see `findCombine`) pairwise
merge/append, then run the parent-merge/unwrap loop. -/
def simplify : QT → QT
  | .cond c => .cond c
  | .node op neg rel cs =>
    let cs1 := simplifyL cs
    let cs2 := match findCombine op cs1 with
      | some (n, r) => QL.cons n r
      | none => cs1
    parentLoop op neg rel cs2

/-- `[c.simplify() if isinstance(c, Q) else c for c in q.children]`
(query.py lines 143-144). -/
def simplifyL : QL → QL
  | .nil => .nil
  | .cons c cs => .cons (simplify c) (simplifyL cs)
end

/-! ## The SQL compiler (`SQLCompiler`, query.py lines 180-261)

The compiler consults feature-class metadata (field-name → storage-name
mapping, table names, relationship key columns) that lives in the
registered feature classes and the workspace; it is modelled as an
environment of resolution functions.  Feature classes are identified by
name. -/

/-- The feature-class metadata consulted by `SQLCompiler`. -/
structure CompileEnv where
  /-- `fields.get_db_name` of a feature class (query.py lines 243-244). -/
  dbNameOf : String → String → String
  /-- `feature_class.name`, the table queried in sub-selects. -/
  tableOf : String → String
  /-- `SQLCompiler._resolve_rel` for an actual relationship (query.py
  lines 250-261): the related feature class, the correlating key in the
  current table (`other_key`), and the correlating key in the related
  table (`self_key`). -/
  relInfo : String → String → String × String × String

/-- `SQLCompiler._resolve_rel` (query.py lines 246-261): no scope means
the current feature class and null keys. -/
def resolveRel (env : CompileEnv) (fc : String) :
    Option String → String × Option String × Option String
  | none => (fc, none, none)
  | some r =>
    let (fc2, other_key, self_key) := env.relInfo fc r
    (fc2, some other_key, some self_key)

/-- `sep.join(parts)` (query.py line 199): empty for no parts, otherwise
the parts separated by `sep`. -/
def joinSep (sep : String) : List String → String
  | [] => ""
  | [x] => x
  | x :: xs => x ++ sep ++ joinSep sep xs

/-- `SQLCompiler._to_string` (query.py lines 217-236): null renders as
`NULL`, strings are quoted (with `%` wildcards under `LIKE`), lists
render as parenthesized comma-separated items, and other values render
via `str()`.  Coded-domain `D` values are resolved through the workspace
and are not modelled.  The `field_name` argument is only used for that
domain resolution. -/
def toStringVal (field_name : String) (v : SqlVal) (operator : String) : String :=
  match v with
  | .vnull => "NULL"
  | .vstr s => if operator == "LIKE" then "'%" ++ s ++ "%'" else "'" ++ s ++ "'"
  | .vlist vs => "(" ++ joinSep ", " (toStringList field_name vs operator) ++ ")"
  | .vint n => toString n
where
  /-- Rendering of the items of a list value. -/
  toStringList (field_name : String) (vs : SqlValList) (operator : String) : List String :=
    match vs with
    | .nil => []
    | .cons v rest => toStringVal field_name v operator :: toStringList field_name rest operator

/-- `SQLCompiler._compile_sql_condition` (query.py lines 211-215). -/
def compileCond (env : CompileEnv) (fc : String) (c : SQLCondition) : String :=
  env.dbNameOf fc c.field_name ++ " " ++ c.operator ++ " " ++
    toStringVal c.field_name c.value c.operator

mutual
/-- `SQLCompiler.compile` (query.py lines 185-209): simplify, compile
each child (sub-`Q`s through a compiler for the resolved feature class,
and — as in the source — without passing `inner=True`), join with the
node's operator, parenthesize a multi-part group that is negated or
inner, prefix `NOT` for negation, and wrap relationship scopes in a
correlated sub-select.  The fuel only bounds the recursion depth; the
`compile` wrapper supplies more than enough. -/
def compileF (fuel : Nat) (env : CompileEnv) (fc : String) (inner : Bool) (q : QT) : String :=
  match fuel with
  | 0 => ""
  | fuel+1 =>
    match simplify q with
    | .cond c => compileCond env fc c
    | .node op neg rel cs =>
      let (fc2, other_key, self_key) := resolveRel env fc rel
      let parts := compileParts fuel env fc2 cs
      let whereStr := joinSep (" " ++ op ++ " ") parts
      let w1 := if decide (1 < parts.length) && (neg || inner) then
          "(" ++ whereStr ++ ")"
        else whereStr
      let w2 := if neg then "NOT " ++ w1 else w1
      match other_key, self_key with
      | some ok, some sk =>
        ok ++ " IN (SELECT " ++ sk ++ " FROM " ++ env.tableOf fc2 ++ " WHERE " ++ w2 ++ ")"
      | _, _ => w2

/-- The `where_parts` list of `SQLCompiler.compile` (query.py lines
190-196): conditions are rendered directly, nested `Q`s recursively. -/
def compileParts (fuel : Nat) (env : CompileEnv) (fc2 : String) (cs : QL) : List String :=
  match fuel with
  | 0 => []
  | fuel+1 =>
    match cs with
    | .nil => []
    | .cons c rest =>
      match c with
      | .cond sc => compileCond env fc2 sc :: compileParts fuel env fc2 rest
      | .node o n r k =>
        compileF fuel env fc2 false (.node o n r k) :: compileParts fuel env fc2 rest
end

/-- `SQLCompiler.compile` with ample fuel (`compile(q)`; the `inner` flag
defaults to `False` and, notably, is never set by the recursive call at
query.py line 193). -/
def compile (env : CompileEnv) (fc : String) (q : QT) : String :=
  compileF (2 * qsize q + 2) env fc false q

/-! ## Concrete instances used by the counterexamples -/

/-- `Q(f1=1, r__f2=2) & Q(r__f3=3)`: two filter sets combined with `&`,
the first containing a plain comparison and a relationship-scoped one,
the second a comparison under the same relationship scope. -/
def cexQ1 : QT := qand (mkQ [("f1", .vint 1), ("r__f2", .vint 2)]) (mkQ [("r__f3", .vint 3)])

/-- A resolution environment where storage names equal field names, table
names equal class names, and every relationship resolves to the related
class `RC` correlated by `fk_col`/`pk_col`. -/
def plainEnv : CompileEnv :=
  { dbNameOf := fun _ f => f,
    tableOf := fun t => t,
    relInfo := fun _ _ => ("RC", "fk_col", "pk_col") }

/-- `mkQ` produces exactly the nested shape used in the theorems below:
one relationship traversal produces one scoped node wrapping the leaf. -/
theorem mkQ_rel_shape :
    mkQ [("r__f2", .vint 2)] = .node "AND" false none
      (.cons (.node "AND" false (some "r")
        (.cons (.cond { field_name := "f2", operator := "=", value := .vint 2 }) .nil)) .nil) := by
  decide

/-! ## Claim C1 — idempotence of `simplify` -/

/-- C1 counterexample: for the tree `Q(f1=1, r__f2=2) & Q(r__f3=3)`,
one application of `simplify` leaves the two `r`-scoped subtrees as
separate siblings (the pairwise merge scan runs before the parent-merge
loop exposes them, and is not re-run), while a second application merges
them — so `simplify(simplify(q)) ≠ simplify(q)`. -/
theorem C1_counterexample : simplify (simplify cexQ1) ≠ simplify cexQ1 := by decide

/-! ## Claim C2 — parenthesization of compiled negations

The source's `compile` has an `inner` flag whose only effect (query.py
line 201) is to parenthesize a multi-part inner group, but the recursive
call at line 193 never passes it.  After `simplify`, `~(A & B)` is a
negated node with a single merged child, so the negated conjunction
compiles **without** parentheses: `NOT a = 1 AND b = 2`, which SQL parses
as `(NOT a = 1) AND b = 2`. -/

/-- C2: evaluation of the compiler at the failing input `~(Q(a=1) &
Q(b=2))` — the conjunction under `NOT` is not parenthesized — together
with the correct handling of a negated single leaf `~Q(a=1)` and of a
negated multi-comparison node `~Q(a=1, b=2)` (which does get
parentheses, showing the intent of the parenthesization logic). -/
theorem C2_failing_eval :
    compile plainEnv "FC" (qnot (qand (mkQ [("a", .vint 1)]) (mkQ [("b", .vint 2)])))
      = "NOT a = 1 AND b = 2" ∧
    compile plainEnv "FC" (qnot (mkQ [("a", .vint 1)])) = "NOT a = 1" ∧
    compile plainEnv "FC" (qnot (mkQ [("a", .vint 1), ("b", .vint 2)]))
      = "NOT (a = 1 AND b = 2)" := by
  refine ⟨by decide, by decide, by decide⟩

/-! ## Claim C3 — one correlated sub-select per relationship scope -/

/-- C3: combining two filters that traverse the same relationship scope
with AND compiles to exactly one correlated sub-select containing both
comparisons; and `Q._can_merge` permits merging two relationship-scoped
subtrees whenever their scopes are equal and operator and negation
agree. -/
theorem C3_same_scope_single_subselect (env : CompileEnv) (fc r : String)
    (c1 c2 : SQLCondition) :
    (compile env fc
      (qand (.node "AND" false none (.cons (.node "AND" false (some r) (.cons (.cond c1) .nil)) .nil))
            (.node "AND" false none (.cons (.node "AND" false (some r) (.cons (.cond c2) .nil)) .nil)))
      = (env.relInfo fc r).2.1 ++ " IN (SELECT " ++ (env.relInfo fc r).2.2 ++ " FROM " ++
        env.tableOf (env.relInfo fc r).1 ++ " WHERE " ++
        compileCond env (env.relInfo fc r).1 c1 ++ " AND " ++
        compileCond env (env.relInfo fc r).1 c2 ++ ")") ∧
    (∀ (op : String) (neg : Bool) (rel : Option String) (cs1 cs2 : QL),
      canMerge (.node op neg rel cs1) (.node op neg rel cs2) op = true) := by
  constructor
  · simp [compile, compileF, compileParts, simplify, simplifyL, parentLoop, parentLoopF,
      findCombine, findWith, mergeOrAppend, canMerge, canAppend, mergeQ, appendQ,
      opMatchQ, negOf, relOf, childrenOf, canMergeParent, passKept, passPromoted,
      anyMergeable, qsize, qsizeL, qand, resolveRel, QL.lengthL, QL.append, joinSep,
      String.append_assoc]
  · intro op neg rel cs1 cs2
    simp [canMerge, opMatchQ, negOf, relOf]

/-! ## Scales (`scales.py`)

`BreaksScale` classifies a numeric value against ordered break points.
The values appearing in the claims are Python integers, modelled as `ℤ`;
a level is a plain number here, as in the claims (a `ScaleLevel` would be
unwrapped by `BaseScale.score`, scales.py lines 46-54). -/

/-- `breaks == sorted(breaks)` (scales.py line 87): true exactly when the
list is nondecreasing (Python's sort is stable). -/
def sortedAsc : List ℤ → Bool
  | [] => true
  | [_] => true
  | a :: b :: t => a ≤ b && sortedAsc (b :: t)

/-- A constructed `BreaksScale` (scales.py lines 86-96). -/
structure BreaksScaleM where
  breaks : List ℤ
  levels : List ℤ
  right : Bool
deriving Repr, DecidableEq

/-- `BreaksScale.__init__` (scales.py lines 86-96): breaks must be
nondecreasing and there must be exactly one more level than breaks. -/
def mkBreaksScale (breaks : List ℤ) (levels : List ℤ) (right : Bool) :
    Except String BreaksScaleM :=
  if !sortedAsc breaks then
    .error "Breaks must be provided in increasing order"
  else if breaks.length + 1 != levels.length then
    .error "The number of levels must be one greater than the number of breaks"
  else .ok { breaks := breaks, levels := levels, right := right }

/-- `value < break_value` where the appended sentinel `float('Inf')` is
modelled as `none` (scales.py line 111). -/
def ltBreak (value : ℤ) : Option ℤ → Bool
  | none => true
  | some b => value < b

/-- `value == break_value` against the possibly-infinite break. -/
def eqBreak (value : ℤ) : Option ℤ → Bool
  | none => false
  | some b => value == b

/-- The scan of `BreaksScale.get_level` (scales.py lines 112-114): return
the level paired with the first break the value is below — or equal to,
when right-inclusive.  `none` models the implicit Python `None`
fall-through (unreachable for a scale accepted by `mkBreaksScale`). -/
def scanBreaks (right : Bool) (value : ℤ) : List (Option ℤ × ℤ) → Option ℤ
  | [] => none
  | (b, l) :: rest =>
    if ltBreak value b || (right && eqBreak value b) then some l
    else scanBreaks right value rest

/-- `BreaksScale.get_level` (scales.py lines 105-114): zip
`breaks + [Inf]` with the levels and scan. -/
def getLevelBreaks (s : BreaksScaleM) (value : ℤ) : Option ℤ :=
  scanBreaks s.right value ((s.breaks.map some ++ [none]).zip s.levels)

/-- `BaseScale.score` (scales.py lines 46-54): the level for the value
(numeric levels are returned as they are). -/
def scoreBreaks (s : BreaksScaleM) (value : ℤ) : Option ℤ :=
  getLevelBreaks s value

/-! ## Claim C4 — `BreaksScale` scoring -/

/-- The scale of the claim: breaks `[100, 500, 1000]`, levels
`[1, 2, 3, 4]`, right-inclusive. -/
def c4Scale : BreaksScaleM := { breaks := [100, 500, 1000], levels := [1, 2, 3, 4], right := true }

/-- C4 counterexample: the claim asserts `score(1000) = 4`, but a
right-inclusive scale places a value equal to a break in the bucket
below it, so `score(1000) = 3` (consistent with the repository's own
test `test_score_right`, which expects `score(20) == 4` for breaks
`[5, 10, 15, 20]` and levels `[1, 2, 3, 4, 5]`). -/
theorem C4_counterexample : scoreBreaks c4Scale 1000 ≠ some 4 := by decide

/-- C4 (amended): the constructor accepts the scale of the claim, and
`score(50) = 1`, `score(100) = 1`, `score(101) = 2`, `score(1000) = 3`,
`score(5000) = 4`. -/
theorem C4_breaks_scale_scores :
    mkBreaksScale [100, 500, 1000] [1, 2, 3, 4] true = .ok c4Scale ∧
    scoreBreaks c4Scale 50 = some 1 ∧
    scoreBreaks c4Scale 100 = some 1 ∧
    scoreBreaks c4Scale 101 = some 2 ∧
    scoreBreaks c4Scale 1000 = some 3 ∧
    scoreBreaks c4Scale 5000 = some 4 := by
  refine ⟨rfl, by decide, by decide, by decide, by decide, by decide⟩

/-! ## Fields (`fields.py`)

Stored field values are `None`, numbers, strings, or unresolved
`DeferredValue` placeholders; numbers are modelled as `ℚ`. -/

/-- A value held in a record's `values` dictionary. -/
inductive StoreVal where
  | null : StoreVal
  | num : ℚ → StoreVal
  | str : String → StoreVal
  | deferredMark : String → String → StoreVal
deriving Repr, DecidableEq

/-- The field metadata consulted by the embedded methods: logical and
storage name, label, storage scale, required flag, choice set, and the
isinstance distinctions made by `features.py` (`OIDField`,
`ForeignKey`).  The modelled fields have no coded-value domain (domain
resolution goes through the external workspace). -/
structure FieldM where
  name : String
  db_name : String
  label : String
  db_scale : Option Nat
  required : Bool
  choices : List StoreVal
  is_oid : Bool
  is_fk : Bool
deriving Repr, DecidableEq

/-- Python 2 `round(q)`: round half away from zero. -/
def pyRound (q : ℚ) : ℤ :=
  if 0 ≤ q then ⌊q + 1/2⌋ else -⌊-q + 1/2⌋

/-- `round(value, scale)`: round to `scale` decimal places. -/
def roundScale (scale : Nat) (q : ℚ) : ℚ :=
  (pyRound (q * 10 ^ scale) : ℚ) / 10 ^ scale

/-- `BaseField.round` (fields.py lines 113-122): numeric values are
rounded to `db_scale` decimal places when the scale is set; everything
else is returned unchanged. -/
def roundVal (f : FieldM) (v : StoreVal) : StoreVal :=
  match f.db_scale, v with
  | some s, .num q => .num (roundScale s q)
  | _, _ => v

/-- `BaseField.has_changed` (fields.py lines 124-132): both values are
rounded to the storage scale before comparing. -/
def hasChanged (f : FieldM) (old new : StoreVal) : Bool :=
  decide (roundVal f old ≠ roundVal f new)

/-- `BaseField.validate` (fields.py lines 97-111): a null value in a
required field is missing; a non-null value outside a non-empty choice
set is invalid. -/
def validateBase (f : FieldM) (v : StoreVal) : List String :=
  if f.required && (v == .null) then [f.label ++ " is missing"]
  else if decide (0 < f.choices.length) && !(v == .null) && !(f.choices.contains v) then
    [f.label ++ " is invalid"]
  else []

/-- Python `str.strip()`: drop whitespace from both ends. -/
def pyStrip (s : String) : String :=
  String.mk (((s.data.dropWhile Char.isWhitespace).reverse.dropWhile Char.isWhitespace).reverse)

/-- `StringField.validate` (fields.py lines 211-219): a string value that
strips to the empty string is converted to `None` before the base
validation runs. -/
def validateString (f : FieldM) (v : StoreVal) : List String :=
  let v := match v with
    | .str s => if pyStrip s == "" then .null else .str s
    | other => other
  validateBase f v

/-! ## Claim C7 — storage-scale rounding in `has_changed` -/

/-- `round(1.001, 2) = 1.0`. -/
lemma roundScale_two_1001 : roundScale 2 1.001 = 1 := by
  have hm : ((1.001 : ℚ) * 10 ^ (2 : ℕ)) = 100.1 := by norm_num
  have hf : ⌊(100.1 + 1/2 : ℚ)⌋ = 100 := by norm_num [Int.floor_eq_iff]
  rw [roundScale, hm, pyRound, if_pos (by norm_num : (0:ℚ) ≤ 100.1), hf]
  norm_num

/-- `round(1.004, 2) = 1.0`. -/
lemma roundScale_two_1004 : roundScale 2 1.004 = 1 := by
  have hm : ((1.004 : ℚ) * 10 ^ (2 : ℕ)) = 100.4 := by norm_num
  have hf : ⌊(100.4 + 1/2 : ℚ)⌋ = 100 := by norm_num [Int.floor_eq_iff]
  rw [roundScale, hm, pyRound, if_pos (by norm_num : (0:ℚ) ≤ 100.4), hf]
  norm_num

/-- `round(1.02, 2) = 1.02`. -/
lemma roundScale_two_102 : roundScale 2 1.02 = 51/50 := by
  have hm : ((1.02 : ℚ) * 10 ^ (2 : ℕ)) = 102 := by norm_num
  have hf : ⌊(102 + 1/2 : ℚ)⌋ = 102 := by norm_num [Int.floor_eq_iff]
  rw [roundScale, hm, pyRound, if_pos (by norm_num : (0:ℚ) ≤ 102), hf]
  norm_num

/-- C7: a field with storage scale 2 rounds both values to 2 decimal
places before comparing: `has_changed(1.001, 1.004)` is false and
`has_changed(1.001, 1.02)` is true. -/
theorem C7_has_changed_scale2 (f : FieldM) (h : f.db_scale = some 2) :
    hasChanged f (.num 1.001) (.num 1.004) = false ∧
    hasChanged f (.num 1.001) (.num 1.02) = true := by
  refine ⟨?_, ?_⟩
  · simp [hasChanged, roundVal, h, roundScale_two_1001, roundScale_two_1004]
  · simp [hasChanged, roundVal, h, roundScale_two_1001, roundScale_two_102]
    norm_num

/-- Witness for C7 at a concrete field. -/
theorem C7_witness :
    ({ name := "n", db_name := "n", label := "Numeric Field",
       db_scale := some 2, required := false, choices := [],
       is_oid := false, is_fk := false } : FieldM).db_scale = some 2 ∧
    hasChanged ({ name := "n", db_name := "n", label := "Numeric Field",
                  db_scale := some 2, required := false, choices := [],
                  is_oid := false, is_fk := false } : FieldM)
        (.num 1.001) (.num 1.004) = false :=
  ⟨rfl, (C7_has_changed_scale2 _ rfl).1⟩

/-! ## Claim C9 — whitespace-only strings in required string fields -/

/-- C9: for a required string field, a string value that strips to the
empty string validates exactly like null — it yields the missing-value
message — and an empty (or whitespace-only) string never yields the
invalid-choice message, whatever the choice set. -/
theorem C9_string_validate (f : FieldM) (s : String) (hs : pyStrip s = "") :
    validateString f (.str s) = validateBase f .null ∧
    (f.required = true → validateString f (.str s) = [f.label ++ " is missing"]) ∧
    validateString f (.str s) ≠ [f.label ++ " is invalid"] := by
  have h1 : validateString f (.str s) = validateBase f .null := by
    simp [validateString, hs]
  refine ⟨h1, ?_, ?_⟩
  · intro hreq
    simp [h1, validateBase, hreq]
  · rw [h1]
    simp only [validateBase]
    split
    · intro hcontra
      have := List.head_eq_of_cons_eq hcontra
      have hne : f.label ++ " is missing" ≠ f.label ++ " is invalid" := by
        intro he
        have : (f.label ++ " is missing").data = (f.label ++ " is invalid").data := by rw [he]
        simp [String.data_append] at this
      exact hne this
    · split
      · simp_all
      · simp

/-! ## Association-list dictionaries

Python `dict`s are modelled as association lists with unique keys.
`alookup` is `d.get(k)`, `dictSet` is `d[k] = v` (replace the binding or
append a new one), and `dictUpdate` is `d.update(other)`. -/

/-- `d.get(k)`: the value bound to the first occurrence of the key. -/
def alookup {κ β : Type} [DecidableEq κ] : List (κ × β) → κ → Option β
  | [], _ => none
  | p :: rest, k => if p.1 = k then some p.2 else alookup rest k

/-- `d[k] = v`. -/
def dictSet {κ β : Type} [DecidableEq κ] : List (κ × β) → κ → β → List (κ × β)
  | [], k, v => [(k, v)]
  | p :: rest, k, v => if p.1 = k then (k, v) :: rest else p :: dictSet rest k v

/-- `d.update(other)`: fold the updates left to right. -/
def dictUpdate {κ β : Type} [DecidableEq κ] (m : List (κ × β)) (upd : List (κ × β)) :
    List (κ × β) :=
  upd.foldl (fun acc p => dictSet acc p.1 p.2) m

lemma alookup_dictSet {κ β : Type} [DecidableEq κ] (m : List (κ × β)) (k0 : κ) (v : β)
    (k : κ) : alookup (dictSet m k0 v) k = if k0 = k then some v else alookup m k := by
  induction m with
  | nil => simp [dictSet, alookup]
  | cons p rest ih =>
    by_cases h1 : p.1 = k0
    · rw [dictSet, if_pos h1]
      by_cases h : k0 = k
      · simp [alookup, h]
      · have hp : ¬ p.1 = k := fun hh => h (h1 ▸ hh)
        simp [alookup, h, hp]
    · rw [dictSet, if_neg h1]
      by_cases h2 : p.1 = k
      · have : ¬ k0 = k := fun hh => h1 (by rw [h2, hh])
        simp [alookup, h2, this]
      · simp [alookup, h2, ih]

lemma keys_dictSet {κ β : Type} [DecidableEq κ] (m : List (κ × β)) (k0 : κ) (v : β) :
    (dictSet m k0 v).map Prod.fst = if k0 ∈ m.map Prod.fst
      then m.map Prod.fst else m.map Prod.fst ++ [k0] := by
  induction m with
  | nil => simp [dictSet]
  | cons p rest ih =>
    by_cases h1 : p.1 = k0
    · simp [dictSet, h1]
    · have hne : ¬ k0 = p.1 := fun hh => h1 hh.symm
      simp only [dictSet, if_neg h1, List.map_cons, List.mem_cons, ih]
      by_cases hm : k0 ∈ rest.map Prod.fst
      · simp [hm, hne]
      · simp [hm, hne]

lemma alookup_eq_none_of_not_mem_keys {κ β : Type} [DecidableEq κ]
    (m : List (κ × β)) (k : κ) (h : k ∉ m.map Prod.fst) : alookup m k = none := by
  induction m with
  | nil => rfl
  | cons p rest ih =>
    simp only [List.map_cons, List.mem_cons, not_or] at h
    have hp : ¬ p.1 = k := fun hh => h.1 hh.symm
    simp [alookup, hp, ih h.2]

lemma alookup_dictUpdate {κ β : Type} [DecidableEq κ] (m upd : List (κ × β))
    (k : κ) (h : (upd.map Prod.fst).Nodup) :
    alookup (dictUpdate m upd) k =
      match alookup upd k with
      | some v => some v
      | none => alookup m k := by
  induction upd generalizing m with
  | nil => simp [dictUpdate, alookup]
  | cons p rest ih =>
    simp only [List.map_cons, List.nodup_cons] at h
    have step : dictUpdate m (p :: rest) = dictUpdate (dictSet m p.1 p.2) rest := by
      simp [dictUpdate, List.foldl_cons]
    rw [step, ih _ h.2]
    by_cases hk : p.1 = k
    · have hnone : alookup rest k = none :=
        alookup_eq_none_of_not_mem_keys _ _ (by rw [← hk]; exact h.1)
      simp [alookup, hk, hnone, alookup_dictSet]
    · simp [alookup, hk, alookup_dictSet]

/-! ## The lazy result set (`QuerySet`, query.py lines 264-611)

`Query` and `QuerySet` as value types.  Each Python method that can
touch the receiver is translated as a function returning the pair
`(receiver after the call, result)`, so that mutation (or its absence)
is visible in the theorems. -/

/-- An entry of the `_order_by` list: `set_order` accepts either a bare
field name or a `[field, direction]` pair (query.py lines 286-292). -/
inductive OrderSpec where
  | plain : String → OrderSpec
  | pair : String → String → OrderSpec
deriving Repr, DecidableEq

/-- `Query` (query.py lines 264-319): requested storage fields, the
optional condition tree, and the ordering.  (`_group_by` is never
assigned anywhere in the source and is omitted.) -/
structure QueryM where
  fields : List String
  whereQ : Option QT
  order_by : Option (List (String × String))
deriving Repr, DecidableEq

/-- `Query.clone` (query.py lines 273-278): a fresh object with the same
fields, condition, and ordering. -/
def cloneQuery (q : QueryM) : QueryM :=
  { fields := q.fields, whereQ := q.whereQ, order_by := q.order_by }

/-- `Query.add_q` (query.py lines 280-284). -/
def addQ (q : QueryM) (x : QT) : QueryM :=
  { q with whereQ := match q.whereQ with
      | none => some x
      | some w => some (qand w x) }

/-- `Query.set_order` (query.py lines 286-292). -/
def setOrder (q : QueryM) (fields : List OrderSpec) : QueryM :=
  { q with order_by := some (fields.map (fun f =>
      match f with
      | .plain s => (s, "ASC")
      | .pair s d => (s, d))) }

/-- `QuerySet` state (query.py lines 322-331): the query, the two
field-name caches, the result cache (`none` = unfetched), and the queued
prefetch relationships.  `α` is the record type. -/
structure QuerySetM (α : Type) where
  query : QueryM
  field_name_cache : Option (List String)
  db_name_cache : Option (List String)
  cache : Option (List α)
  prefetch_rel : List String
deriving Repr, DecidableEq

/-- `QuerySet._clone` (query.py lines 447-456): a fresh `QuerySet` with a
cloned query; the name caches and the prefetch list are carried over, and
the result cache only when `preserve_cache` is set. -/
def cloneQS {α : Type} (qs : QuerySetM α) (preserve_cache : Bool) : QuerySetM α :=
  { query := cloneQuery qs.query,
    field_name_cache := qs.field_name_cache,
    db_name_cache := qs.db_name_cache,
    cache := if preserve_cache then qs.cache else none,
    prefetch_rel := qs.prefetch_rel }

/-- `QuerySet.filter` (query.py lines 481-484): clone, then add the
condition to the clone's query.  Returns (receiver after the call,
result).  The `Q` built by `_make_q` from the arguments is passed in
directly. -/
def filterM {α : Type} (qs : QuerySetM α) (q : QT) : QuerySetM α × QuerySetM α :=
  let clone := cloneQS qs false
  let clone := { clone with query := addQ clone.query q }
  (qs, clone)

/-- `QuerySet.exclude` (query.py lines 486-489): like `filter` with the
condition negated. -/
def excludeM {α : Type} (qs : QuerySetM α) (q : QT) : QuerySetM α × QuerySetM α :=
  let clone := cloneQS qs false
  let clone := { clone with query := addQ clone.query (qnot q) }
  (qs, clone)

/-- `QuerySet.order_by` (query.py lines 491-494). -/
def orderByM {α : Type} (qs : QuerySetM α) (fields : List OrderSpec) :
    QuerySetM α × QuerySetM α :=
  let clone := cloneQS qs false
  let clone := { clone with query := setOrder clone.query fields }
  (qs, clone)

/-- `QuerySet.prefetch_related` (query.py lines 597-601): append each
relationship name not already queued to the receiver's own
`_prefetch_rel` list, and return the receiver itself — no clone. -/
def prefetchRelatedM {α : Type} (qs : QuerySetM α) (rels : List String) :
    QuerySetM α × QuerySetM α :=
  let newRels := rels.foldl
    (fun acc rel => if acc.contains rel then acc else acc ++ [rel]) qs.prefetch_rel
  let self := { qs with prefetch_rel := newRels }
  (self, self)

/-! ## Claim C5 — cloning versus in-place mutation -/

/-- A fetched result set over abstractly-numbered records: empty query
on fields `["OBJECTID"]`, cache populated with two records, nothing
queued for prefetch. -/
def c5Fetched : QuerySetM Nat :=
  { query := { fields := ["OBJECTID"], whereQ := none, order_by := none },
    field_name_cache := none,
    db_name_cache := none,
    cache := some [1, 2],
    prefetch_rel := [] }

/-- C5 counterexample: `prefetch_related` does not clone — it changes
the receiver's prefetch list in place (and returns the receiver). -/
theorem C5_counterexample : (prefetchRelatedM c5Fetched ["widgets"]).1 ≠ c5Fetched := by
  decide

lemma contains_foldl_prefetch (rels : List String) (acc : List String)
    (r : String) (h : r ∈ acc) :
    r ∈ rels.foldl (fun acc rel => if acc.contains rel then acc else acc ++ [rel]) acc := by
  induction rels generalizing acc with
  | nil => simpa using h
  | cons x rest ih =>
    simp only [List.foldl_cons]
    by_cases hx : acc.contains x
    · rw [if_pos hx]; exact ih _ h
    · rw [if_neg hx]
      exact ih _ (List.mem_append_left _ h)

lemma mem_foldl_prefetch (rels : List String) (acc : List String) (r : String)
    (h : r ∈ rels) :
    r ∈ rels.foldl (fun acc rel => if acc.contains rel then acc else acc ++ [rel]) acc := by
  induction rels generalizing acc with
  | nil => cases h
  | cons x rest ih =>
    simp only [List.foldl_cons]
    rcases List.mem_cons.mp h with h | h
    · subst h
      by_cases hx : acc.contains r
      · rw [if_pos hx]
        exact contains_foldl_prefetch rest _ r (by
          have := hx
          simpa [List.contains] using List.mem_of_elem_eq_true this)
      · rw [if_neg hx]
        exact contains_foldl_prefetch rest _ r (List.mem_append_right _ (by simp))
    · by_cases hx : acc.contains x
      · rw [if_pos hx]; exact ih _ h
      · rw [if_neg hx]; exact ih _ h

/-- C5 (amended): `filter`, `exclude`, and `order_by` clone first and
leave the receiver — query, cache, and prefetch list — completely
unchanged; `prefetch_related` leaves the receiver's query and cache
unchanged but appends the requested names to the receiver's own prefetch
list in place, and returns the receiver itself rather than a clone. -/
theorem C5_clone_discipline {α : Type} (qs : QuerySetM α) (q : QT)
    (fields : List OrderSpec) (rels : List String) :
    (filterM qs q).1 = qs ∧
    (excludeM qs q).1 = qs ∧
    (orderByM qs fields).1 = qs ∧
    (prefetchRelatedM qs rels).1.query = qs.query ∧
    (prefetchRelatedM qs rels).1.cache = qs.cache ∧
    (prefetchRelatedM qs rels).2 = (prefetchRelatedM qs rels).1 ∧
    rels.all (fun r => ((prefetchRelatedM qs rels).1.prefetch_rel).contains r) = true := by
  refine ⟨rfl, rfl, rfl, by simp [prefetchRelatedM], by simp [prefetchRelatedM],
    by simp [prefetchRelatedM], ?_⟩
  rw [List.all_eq_true]
  intro r hr
  simp only [prefetchRelatedM, List.contains]
  exact List.elem_eq_true_of_mem (mem_foldl_prefetch rels qs.prefetch_rel r hr)

/-! ## Relationship prefetching (`QuerySet._prefetch_related_manager`,
query.py lines 376-390, and `RelatedManager.__get__`, lines 632-659)

The row store is modelled at its interface (spec §6): a related table is
a list of destination records `δ` with a foreign-key accessor, and each
`objects.filter(...)` call that gets iterated counts as one query
against it.  A parent record carries its primary key and its per-instance
`_prefetch_cache`. -/

/-- A fetched parent record: primary-key value and per-instance prefetch
cache (`feature._prefetch_cache`). -/
structure ParentRec (δ : Type) where
  pk : Int
  prefetch_cache : List (String × List δ)
deriving Repr, DecidableEq

/-- `dest_map[key].append(feature)` on the `defaultdict(list)` of
query.py lines 384-386. -/
def bucketAdd {δ : Type} (m : List (Int × List δ)) (k : Int) (d : δ) :
    List (Int × List δ) :=
  dictSet m k (((alookup m k).getD []) ++ [d])

/-- The `dest_map` built by query.py lines 384-386: bucket the fetched
destination records by their foreign-key value. -/
def buildDestMap {δ : Type} (fkOf : δ → Int) (ds : List δ) : List (Int × List δ) :=
  ds.foldl (fun m d => bucketAdd m (fkOf d) d) []

/-- `defaultdict` read: missing keys give the empty list. -/
def dmGet {δ : Type} (m : List (Int × List δ)) (k : Int) : List δ :=
  (alookup m k).getD []

/-- `QuerySet._prefetch_related_manager` (query.py lines 376-390): issue
one `filter(foreign_key__in=pks)` query for the whole batch (counted by
the returned `1`), bucket the results by foreign key, and store each
record's bucket in its prefetch cache under the relationship name. -/
def prefetchRelatedManagerM {δ : Type} (relName : String) (fkOf : δ → Int)
    (destTable : List δ) (batch : List (ParentRec δ)) :
    List (ParentRec δ) × Nat :=
  let pks := batch.map (fun f => f.pk)
  let dest_features := destTable.filter (fun d => pks.contains (fkOf d))
  let dest_map := buildDestMap fkOf dest_features
  (batch.map (fun f =>
    { f with prefetch_cache := dictSet f.prefetch_cache relName (dmGet dest_map f.pk) }),
   1)

/-- `RelatedManager.__get__` (query.py lines 642-659) followed by
iteration of the returned `QuerySet`: the per-instance prefetch cache
populates the result cache (`qs._cache`), so iterating issues no query;
on a cache miss the filtered `QuerySet` fetches, issuing one query for
the records whose foreign key equals the instance's primary key.  The
result is (records, number of queries issued). -/
def relatedManagerGet {δ : Type} (relName : String) (fkOf : δ → Int)
    (destTable : List δ) (f : ParentRec δ) : List δ × Nat :=
  match alookup f.prefetch_cache relName with
  | some rows => (rows, 0)
  | none => (destTable.filter (fun d => fkOf d == f.pk), 1)

lemma dmGet_bucketAdd {δ : Type} (m : List (Int × List δ)) (k0 k : Int) (d : δ) :
    dmGet (bucketAdd m k0 d) k = if k0 = k then dmGet m k ++ [d] else dmGet m k := by
  simp only [dmGet, bucketAdd, alookup_dictSet]
  by_cases h : k0 = k
  · simp [h]
  · simp [h]

lemma dmGet_buildDestMap_aux {δ : Type} (fkOf : δ → Int) (ds : List δ)
    (m : List (Int × List δ)) (k : Int) :
    dmGet (ds.foldl (fun m d => bucketAdd m (fkOf d) d) m) k =
      dmGet m k ++ ds.filter (fun d => fkOf d == k) := by
  induction ds generalizing m with
  | nil => simp
  | cons d rest ih =>
    simp only [List.foldl_cons, List.filter_cons, ih]
    by_cases h : fkOf d = k
    · simp [dmGet_bucketAdd, h]
    · have hb : (fkOf d == k) = false := by simp [h]
      simp [dmGet_bucketAdd, h, hb]

/-- The `defaultdict` bucketing groups exactly the records whose foreign
key equals the requested key, in table order. -/
lemma dmGet_buildDestMap {δ : Type} (fkOf : δ → Int) (ds : List δ) (k : Int) :
    dmGet (buildDestMap fkOf ds) k = ds.filter (fun d => fkOf d == k) := by
  rw [buildDestMap, dmGet_buildDestMap_aux]
  simp [dmGet, alookup]

/-- Filtering an `IN`-restricted table again by one of the keys of the
restriction gives the same records as filtering the whole table by that
key. -/
lemma filter_inPks {δ : Type} (fkOf : δ → Int) (table : List δ) (pks : List Int)
    (k : Int) (hk : pks.contains k = true) :
    (table.filter (fun d => pks.contains (fkOf d))).filter (fun d => fkOf d == k)
      = table.filter (fun d => fkOf d == k) := by
  have hk2 : k ∈ pks := List.elem_iff.mp hk
  rw [List.filter_filter]
  refine List.filter_congr ?_
  intro d _
  by_cases h : fkOf d = k
  · simp [h, hk2]
  · simp [h]

/-! ## Claim C8 — batched prefetch of a to-many relationship -/

/-- C8: prefetching a to-many relationship for a fetched batch issues
exactly one query whatever the batch size, and fills each record's
prefetch cache with exactly the destination records whose foreign key
equals that record's primary key (in table order); a subsequent access
through the relationship manager returns those records with no further
query; accessing the relationship without prefetch issues one query per
record accessed. -/
theorem C8_prefetch_batching {δ : Type} (relName : String) (fkOf : δ → Int)
    (destTable : List δ) (batch : List (ParentRec δ))
    (hmiss : ∀ f ∈ batch, alookup f.prefetch_cache relName = none) :
    (prefetchRelatedManagerM relName fkOf destTable batch).2 = 1 ∧
    (prefetchRelatedManagerM relName fkOf destTable batch).1 = batch.map (fun f =>
      { f with prefetch_cache :=
                 dictSet f.prefetch_cache relName
                   (destTable.filter (fun d => fkOf d == f.pk)) }) ∧
    (∀ f ∈ (prefetchRelatedManagerM relName fkOf destTable batch).1,
      relatedManagerGet relName fkOf destTable f
        = (destTable.filter (fun d => fkOf d == f.pk), 0)) ∧
    ((batch.map (fun f => (relatedManagerGet relName fkOf destTable f).2)).sum
      = batch.length) := by
  have hbucket : ∀ f ∈ batch,
      dmGet (buildDestMap fkOf
        (destTable.filter (fun d => (batch.map (fun f => f.pk)).contains (fkOf d)))) f.pk
      = destTable.filter (fun d => fkOf d == f.pk) := by
    intro f hf
    rw [dmGet_buildDestMap]
    exact filter_inPks fkOf destTable _ f.pk
      (List.elem_iff.mpr (List.mem_map.mpr ⟨f, hf, rfl⟩))
  refine ⟨rfl, ?_, ?_, ?_⟩
  · simp only [prefetchRelatedManagerM]
    exact List.map_congr_left (fun f hf => by rw [hbucket f hf])
  · intro f hf
    simp only [prefetchRelatedManagerM, List.mem_map] at hf
    obtain ⟨f0, hf0, rfl⟩ := hf
    have halo : alookup (dictSet f0.prefetch_cache relName
        (dmGet (buildDestMap fkOf (destTable.filter (fun d =>
          (batch.map (fun f => f.pk)).contains (fkOf d)))) f0.pk)) relName
        = some (destTable.filter (fun d => fkOf d == f0.pk)) := by
      rw [alookup_dictSet, if_pos rfl, hbucket f0 hf0]
    simp only [relatedManagerGet, halo]
  · have : ∀ f ∈ batch, (relatedManagerGet relName fkOf destTable f).2 = 1 := by
      intro f hf
      simp [relatedManagerGet, hmiss f hf]
    calc (batch.map (fun f => (relatedManagerGet relName fkOf destTable f).2)).sum
        = (batch.map (fun _ => 1)).sum := by
          rw [List.map_congr_left (fun f hf => this f hf)]
      _ = batch.length := by simp [List.map_const]

/-- Witness for C8: a concrete batch of two parents (primary keys 1 and
2) against a destination table with three rows bucketed 2-1. -/
theorem C8_witness :
    (∀ f ∈ ([⟨1, []⟩, ⟨2, []⟩] : List (ParentRec (Int × Int))),
      alookup f.prefetch_cache "children" = none) ∧
    (prefetchRelatedManagerM "children" Prod.snd
        [((10:Int), (1:Int)), (11, 2), (12, 1)] [⟨1, []⟩, ⟨2, []⟩]).2 = 1 :=
  ⟨by decide,
   (C8_prefetch_batching "children" Prod.snd [((10:Int), (1:Int)), (11, 2), (12, 1)]
     [⟨1, []⟩, ⟨2, []⟩] (by decide)).1⟩

/-! ## Records and persistence (`features.py`)

A record (`BaseFeature`) holds a field schema, current values by logical
name, and the persisted snapshot by storage name.  The row store is
modelled at its interface (spec §6): rows keyed by object id, an
`insert_row` that returns the generated identity, and in-place row
updates.  The modelled fields are registered plain fields without
coded-value domains, and the records carry no unresolved deferred
values (hypothesis `h4` below). -/

/-- The backing row store: rows keyed by object id holding a
storage-name → value mapping, and the next identity the backend will
assign. -/
structure StoreM where
  rows : List (StoreVal × List (String × StoreVal))
  next_oid : ℚ
deriving Repr, DecidableEq

/-- A record: field schema, current values (`self.values`), persisted
snapshot (`self.db_values`). -/
structure FeatM where
  fields : List FieldM
  values : List (String × StoreVal)
  db_values : List (String × StoreVal)
deriving Repr, DecidableEq

/-- `self.values.get(name, None)`: a missing key reads as `None`
(features.py uses `.get(..., None)` throughout). -/
def vget (vs : List (String × StoreVal)) (n : String) : StoreVal :=
  (alookup vs n).getD .null

/-- `isinstance(value, DeferredValue)`. -/
def isDeferredSV : StoreVal → Bool
  | .deferredMark _ _ => true
  | _ => false

/-- `fields.oid_field` (features.py lines 33-44): the field declared as
an `OIDField`. -/
def oidFieldOf (f : FeatM) : Option FieldM :=
  f.fields.find? (fun fl => fl.is_oid)

/-- `BaseField.__get__` (fields.py lines 33-50) for a registered plain
field without a coded-value domain, on a value that is not an unresolved
`DeferredValue`: the stored value itself. -/
def fieldGetM (f : FeatM) (fl : FieldM) : StoreVal := vget f.values fl.name

/-- `BaseFeature.serialize` (features.py lines 247-257): storage name →
value for every field whose current value is not an unresolved
`DeferredValue`; foreign keys pass the raw stored value, other fields go
through the field getter. -/
def serialize (f : FeatM) : List (String × StoreVal) :=
  (f.fields.filter (fun fl => !(isDeferredSV (vget f.values fl.name)))).map
    (fun fl => (fl.db_name, if fl.is_fk then vget f.values fl.name else fieldGetM f fl))

/-- `BaseFeature.diff` (features.py lines 259-270): the fields, keyed by
storage name, present both in `serialize()` and in the persisted
snapshot whose old and new values differ after storage-scale rounding;
each maps to its `DiffValues(old, new)` pair. -/
def diffM (f : FeatM) : List (String × (StoreVal × StoreVal)) :=
  let new := serialize f
  f.fields.filterMap (fun fl =>
    match alookup new fl.db_name, alookup f.db_values fl.db_name with
    | some nv, some ov =>
      if hasChanged fl ov nv then some (fl.db_name, (ov, nv)) else none
    | _, _ => none)

/-- `BaseFeature._insert` (features.py lines 288-303): drop the (null)
identity column from the serialized values, insert the row (the store
assigns `next_oid`), set the identity field to the generated id, and
fold the inserted values plus the id into the snapshot.  Always returns
true. -/
def insertM (f : FeatM) (st : StoreM) (ofl : FieldM) : Bool × FeatM × StoreM :=
  let field_values := (serialize f).filter (fun p => p.1 ≠ ofl.db_name)
  let oid := st.next_oid
  let st2 : StoreM := { rows := st.rows ++ [(.num oid, field_values)],
                        next_oid := st.next_oid + 1 }
  let f2 := { f with values := dictSet f.values ofl.name (.num oid) }
  let field_values2 := dictSet field_values ofl.db_name (.num oid)
  (true, { f2 with db_values := dictUpdate f2.db_values field_values2 }, st2)

/-- `BaseFeature._update` (features.py lines 305-318): update every row
matching the identity; zero affected rows is a fatal `LookupError`,
otherwise the changed values are folded into the snapshot and the call
returns true. -/
def updateM (f : FeatM) (st : StoreM) (oidv : StoreVal)
    (field_values : List (String × StoreVal)) :
    Except String (Bool × FeatM × StoreM) :=
  if (st.rows.filter (fun r => r.1 == oidv)).length = 0 then
    .error "A row with the given OID was not found"
  else
    .ok (true,
      { f with db_values := dictUpdate f.db_values field_values },
      { st with rows := st.rows.map (fun r =>
          if r.1 == oidv then (r.1, dictUpdate r.2 field_values) else r) })

/-- `BaseFeature.save` (features.py lines 272-286): insert when the
identity is null; otherwise diff, return false when nothing changed, and
update by identity with the changed values.  The `none` case models the
`AttributeError` of a schema without an `OIDField`. -/
def save (f : FeatM) (st : StoreM) : Except String (Bool × FeatM × StoreM) :=
  match oidFieldOf f with
  | none => .error "feature class has no OID field"
  | some ofl =>
    match vget f.values ofl.name with
    | .null => .ok (insertM f st ofl)
    | oidv =>
      let changes := diffM f
      if changes.isEmpty then .ok (false, f, st)
      else updateM f st oidv (changes.map (fun p => (p.1, p.2.2)))




lemma alookup_map_of_nodup {α κ β : Type} [DecidableEq κ] (l : List α)
    (key : α → κ) (val : α → β) (x : α) (hx : x ∈ l)
    (hnd : (l.map key).Nodup) :
    alookup (l.map (fun a => (key a, val a))) (key x) = some (val x) := by
  induction l with
  | nil => cases hx
  | cons y rest ih =>
    simp only [List.map_cons, List.nodup_cons] at hnd
    rcases List.mem_cons.mp hx with rfl | hx2
    · simp [alookup]
    · have hne : ¬ key y = key x := fun he =>
        hnd.1 (he ▸ List.mem_map.mpr ⟨x, hx2, rfl⟩)
      simp only [List.map_cons, alookup, if_neg hne]
      exact ih hx2 hnd.2

lemma serialize_of_no_deferred (f : FeatM)
    (h4 : ∀ fl ∈ f.fields, isDeferredSV (vget f.values fl.name) = false) :
    serialize f = f.fields.map (fun fl =>
      (fl.db_name, if fl.is_fk then vget f.values fl.name else fieldGetM f fl)) := by
  unfold serialize
  rw [List.filter_eq_self.mpr]
  intro fl hf
  simp [h4 fl hf]

lemma alookup_filter_ne {β : Type} (l : List (String × β)) (k0 n : String)
    (h : n ≠ k0) :
    alookup (l.filter (fun p => p.1 ≠ k0)) n = alookup l n := by
  induction l with
  | nil => rfl
  | cons p rest ih =>
    by_cases hp : p.1 = k0
    · have hfp : (decide (p.1 ≠ k0)) = false := by simp [hp]
      have hpn : ¬ p.1 = n := by rw [hp]; exact fun he => h he.symm
      simp only [List.filter_cons, hfp, Bool.false_eq_true, if_false, ih]
      simp [alookup, hpn]
    · have hfp : (decide (p.1 ≠ k0)) = true := by simp [hp]
      simp only [List.filter_cons, hfp, if_true]
      by_cases hn : p.1 = n
      · simp [alookup, hn]
      · simp only [alookup, if_neg hn]
        exact ih



lemma vget_dictSet (vs : List (String × StoreVal)) (n0 : String) (v : StoreVal)
    (n : String) : vget (dictSet vs n0 v) n = if n0 = n then v else vget vs n := by
  unfold vget
  rw [alookup_dictSet]
  by_cases h : n0 = n <;> simp [h]

lemma serialize_eq_map_vget (f : FeatM)
    (h4 : ∀ fl ∈ f.fields, isDeferredSV (vget f.values fl.name) = false) :
    serialize f = f.fields.map (fun fl => (fl.db_name, vget f.values fl.name)) := by
  rw [serialize_of_no_deferred f h4]
  simp only [fieldGetM, ite_self]

lemma hasChanged_self (fl : FieldM) (v : StoreVal) : hasChanged fl v v = false := by
  simp [hasChanged]

lemma diffM_insertM_eq_nil (f : FeatM) (st : StoreM) (ofl : FieldM)
    (h1 : (f.fields.map (fun fl => fl.db_name)).Nodup)
    (h2 : (f.fields.map (fun fl => fl.name)).Nodup)
    (h3 : oidFieldOf f = some ofl)
    (h4 : ∀ fl ∈ f.fields, isDeferredSV (vget f.values fl.name) = false) :
    diffM (insertM f st ofl).2.1 = [] := by
  have hofl : ofl ∈ f.fields := List.mem_of_find?_eq_some h3
  have hinj_db := List.inj_on_of_nodup_map h1
  have hinj_nm := List.inj_on_of_nodup_map h2
  set oid := st.next_oid with hoid
  set f1 := (insertM f st ofl).2.1 with hf1
  have hf1fields : f1.fields = f.fields := rfl
  have hf1values : f1.values = dictSet f.values ofl.name (.num oid) := rfl
  set fvs1 := (serialize f).filter (fun p => p.1 ≠ ofl.db_name) with hfvs1
  set fvs2 := dictSet fvs1 ofl.db_name (.num oid) with hfvs2
  have hf1db : f1.db_values = dictUpdate f.db_values fvs2 := rfl
  -- values of f1
  have hv1 : ∀ fl ∈ f.fields, vget f1.values fl.name =
      if ofl.name = fl.name then .num oid else vget f.values fl.name := by
    intro fl _
    rw [hf1values, vget_dictSet]
  have h4' : ∀ fl ∈ f1.fields, isDeferredSV (vget f1.values fl.name) = false := by
    intro fl hf
    rw [hf1fields] at hf
    rw [hv1 fl hf]
    by_cases h : ofl.name = fl.name
    · simp [h, isDeferredSV]
    · simp [h, h4 fl hf]
  -- serialized keys
  have hserf : serialize f = f.fields.map (fun fl => (fl.db_name, vget f.values fl.name)) :=
    serialize_eq_map_vget f h4
  have hser1 : serialize f1 = f.fields.map (fun fl => (fl.db_name, vget f1.values fl.name)) := by
    have := serialize_eq_map_vget f1 h4'
    rwa [hf1fields] at this
  -- nodup keys of fvs2
  have hk1 : (fvs1.map Prod.fst).Nodup := by
    have hsub : List.Sublist (fvs1.map Prod.fst) ((serialize f).map Prod.fst) :=
      List.Sublist.map _ (List.filter_sublist _)
    have hkeys : ((serialize f).map Prod.fst).Nodup := by
      rw [hserf, List.map_map]
      simpa [Function.comp] using h1
    exact hkeys.sublist hsub
  have hnotin : ofl.db_name ∉ fvs1.map Prod.fst := by
    intro hmem
    obtain ⟨p, hp, hpe⟩ := List.mem_map.mp hmem
    have := (List.mem_filter.mp hp).2
    simp only [decide_eq_true_eq] at this
    exact this hpe
  have hk2 : (fvs2.map Prod.fst).Nodup := by
    rw [hfvs2, keys_dictSet, if_neg hnotin]
    simp only [List.nodup_append, List.nodup_cons, List.not_mem_nil, not_false_iff,
      List.nodup_nil, and_true, true_and]
    refine ⟨hk1, ?_⟩
    intro a ha hb
    simp only [List.mem_singleton] at hb
    exact hnotin (hb ▸ ha)
  -- lookup in fvs2
  have hfvs2_at : ∀ fl ∈ f.fields, alookup fvs2 fl.db_name = some (vget f1.values fl.name) := by
    intro fl hf
    by_cases heq : fl = ofl
    · subst heq
      rw [hfvs2, alookup_dictSet, if_pos rfl]
      rw [hv1 fl hf, if_pos rfl]
    · have hdb : ¬ ofl.db_name = fl.db_name := fun he =>
        heq (hinj_db hf hofl (he.symm))
      have hnm : ¬ ofl.name = fl.name := fun he =>
        heq (hinj_nm hf hofl (he.symm))
      rw [hfvs2, alookup_dictSet, if_neg hdb, hfvs1,
        alookup_filter_ne _ _ _ (fun he => hdb he.symm), hserf,
        alookup_map_of_nodup f.fields (fun fl => fl.db_name) _ fl hf h1]
      rw [hv1 fl hf, if_neg hnm]
  -- lookup in the updated snapshot
  have hdb1 : ∀ fl ∈ f.fields, alookup f1.db_values fl.db_name
      = some (vget f1.values fl.name) := by
    intro fl hf
    rw [hf1db, alookup_dictUpdate _ _ _ hk2, hfvs2_at fl hf]
  -- lookup in the new serialization
  have hser1_at : ∀ fl ∈ f.fields, alookup (serialize f1) fl.db_name
      = some (vget f1.values fl.name) := by
    intro fl hf
    rw [hser1, alookup_map_of_nodup f.fields (fun fl => fl.db_name) _ fl hf h1]
  -- conclude
  unfold diffM
  rw [List.filterMap_eq_nil_iff]
  intro fl hf
  rw [hf1fields] at hf
  rw [hser1_at fl hf, hdb1 fl hf]
  simp [hasChanged_self]



/-! ## Claim C6 — the save lifecycle -/

/-- C6: for a well-formed record (distinct storage and logical names, an
identity field, no unresolved deferred values):
(a) `save()` with a null identity inserts the serialized values minus the
null identity column, assigns the generated identity to the record, folds
the inserted values into the snapshot, and returns true; immediately
afterwards `diff()` is empty and a second `save()` returns false;
(b) `save()` with identity present and a non-empty diff updates the
matching rows with exactly the changed values, folds them into the
snapshot, and returns true;
(c) when no row matches the identity, the update raises `LookupError`. -/
theorem C6_save_lifecycle (f : FeatM) (st : StoreM) (ofl : FieldM)
    (h1 : (f.fields.map (fun fl => fl.db_name)).Nodup)
    (h2 : (f.fields.map (fun fl => fl.name)).Nodup)
    (h3 : oidFieldOf f = some ofl)
    (h4 : ∀ fl ∈ f.fields, isDeferredSV (vget f.values fl.name) = false) :
    (vget f.values ofl.name = .null →
      save f st = .ok (true, (insertM f st ofl).2.1, (insertM f st ofl).2.2) ∧
      (insertM f st ofl).2.2.rows = st.rows ++
        [(.num st.next_oid, (serialize f).filter (fun p => p.1 ≠ ofl.db_name))] ∧
      vget (insertM f st ofl).2.1.values ofl.name = .num st.next_oid ∧
      diffM (insertM f st ofl).2.1 = [] ∧
      save (insertM f st ofl).2.1 (insertM f st ofl).2.2
        = .ok (false, (insertM f st ofl).2.1, (insertM f st ofl).2.2)) ∧
    (∀ k : ℚ, vget f.values ofl.name = .num k → diffM f ≠ [] →
      st.rows.filter (fun r => r.1 == StoreVal.num k) ≠ [] →
      save f st = .ok (true,
        { f with db_values :=
            dictUpdate f.db_values ((diffM f).map (fun p => (p.1, p.2.2))) },
        { st with rows := st.rows.map (fun r =>
            if r.1 == StoreVal.num k then
              (r.1, dictUpdate r.2 ((diffM f).map (fun p => (p.1, p.2.2))))
            else r) })) ∧
    (∀ k : ℚ, vget f.values ofl.name = .num k → diffM f ≠ [] →
      st.rows.filter (fun r => r.1 == StoreVal.num k) = [] →
      save f st = .error "A row with the given OID was not found") := by
  refine ⟨?_, ?_, ?_⟩
  · intro hnull
    have hsave : save f st = .ok (insertM f st ofl) := by
      simp only [save, h3, hnull]
    have hdiffnil := diffM_insertM_eq_nil f st ofl h1 h2 h3 h4
    have hvget : vget (insertM f st ofl).2.1.values ofl.name = .num st.next_oid := by
      show vget (dictSet f.values ofl.name (.num st.next_oid)) ofl.name = _
      rw [vget_dictSet, if_pos rfl]
    refine ⟨hsave, rfl, hvget, hdiffnil, ?_⟩
    have hoid1 : oidFieldOf (insertM f st ofl).2.1 = some ofl := h3
    simp only [save, hoid1, hvget, hdiffnil]
    simp
  · intro k hk hne hrows
    have hie : (diffM f).isEmpty = false := by
      rcases hd : diffM f with _ | ⟨x, xs⟩
      · exact absurd hd hne
      · rfl
    simp only [save, h3, hk, hie, Bool.false_eq_true, if_false]
    unfold updateM
    rw [if_neg (by
      intro hlen
      exact hrows (List.length_eq_zero.mp hlen))]
  · intro k hk hne hrows
    have hie : (diffM f).isEmpty = false := by
      rcases hd : diffM f with _ | ⟨x, xs⟩
      · exact absurd hd hne
      · rfl
    simp only [save, h3, hk, hie, Bool.false_eq_true, if_false]
    unfold updateM
    rw [if_pos (by rw [hrows]; rfl)]


/-- A concrete `OBJECTID` field. -/
def c6Oid : FieldM :=
  { name := "OBJECTID", db_name := "OBJECTID", label := "OBJECTID",
    db_scale := none, required := false, choices := [],
    is_oid := true, is_fk := false }

/-- A concrete plain string field. -/
def c6Name : FieldM :=
  { name := "widget_name", db_name := "widget_name", label := "Widget Name",
    db_scale := none, required := false, choices := [],
    is_oid := false, is_fk := false }

/-- An unsaved record (identity null). -/
def c6Feat : FeatM :=
  { fields := [c6Oid, c6Name],
    values := [("widget_name", .str "Widget")],
    db_values := [] }

/-- An empty store that will assign identity 1. -/
def c6Store : StoreM := { rows := [], next_oid := 1 }

/-- A fetched record with identity 1 and a pending change. -/
def c6FeatB : FeatM :=
  { fields := [c6Oid, c6Name],
    values := [("OBJECTID", .num 1), ("widget_name", .str "New")],
    db_values := [("OBJECTID", .num 1), ("widget_name", .str "Old")] }

/-- A store from which the row with identity 1 has vanished. -/
def c6StoreC : StoreM := { rows := [], next_oid := 2 }

/-- Witness for C6: the insert-then-save-again lifecycle at a concrete
unsaved record, and the `LookupError` when the row to update has
vanished. -/
theorem C6_witness :
    ((c6Feat.fields.map (fun fl => fl.db_name)).Nodup ∧
      vget c6Feat.values c6Oid.name = .null ∧
      diffM c6FeatB ≠ []) ∧
    (save c6Feat c6Store
        = .ok (true, (insertM c6Feat c6Store c6Oid).2.1, (insertM c6Feat c6Store c6Oid).2.2) ∧
      diffM (insertM c6Feat c6Store c6Oid).2.1 = [] ∧
      save (insertM c6Feat c6Store c6Oid).2.1 (insertM c6Feat c6Store c6Oid).2.2
        = .ok (false, (insertM c6Feat c6Store c6Oid).2.1, (insertM c6Feat c6Store c6Oid).2.2)) ∧
    save c6FeatB c6StoreC = .error "A row with the given OID was not found" := by
  refine ⟨⟨by decide, by decide, by decide⟩, ?_, ?_⟩
  · have h := (C6_save_lifecycle c6Feat c6Store c6Oid (by decide) (by decide)
      (by decide) (by decide)).1 (by decide)
    exact ⟨h.1, h.2.2.2.1, h.2.2.2.2⟩
  · exact (C6_save_lifecycle c6FeatB c6StoreC c6Oid (by decide) (by decide)
      (by decide) (by decide)).2.2 1 (by decide) (by decide) (by decide)

/-! ## `get` and `get_or_create` (query.py lines 497-512)

`get` fetches the filtered `QuerySet` and requires exactly one match;
`get_or_create` falls back to constructing an unpersisted record from
the filter arguments when nothing matches.  The filtered fetch is
modelled at the row-store interface: the store's records and the
backend evaluation of the compiled filter as a predicate. -/

/-- The errors `get`/`get_or_create` can raise. -/
inductive GetError where
  | objectDoesNotExist : GetError
  | multipleObjectsReturned : GetError
  | keyError : GetError
deriving Repr, DecidableEq

/-- `fields[k].db_name` for a logical name (used by
`BaseFeature.__init__`; the default is unreachable under the
valid-names check). -/
def dbNameForName (fields : List FieldM) (n : String) : String :=
  ((fields.find? (fun fl => fl.name = n)).map (fun fl => fl.db_name)).getD n

/-- `BaseFeature.__init__` (features.py lines 168-178): reject unknown
field names with a `KeyError`; otherwise the values are the keyword
arguments and the snapshot maps their storage names to the non-deferred
values. -/
def newFeature (fields : List FieldM) (kwargs : List (String × StoreVal)) :
    Except GetError FeatM :=
  if kwargs.all (fun p => (fields.map (fun fl => fl.name)).contains p.1) then
    .ok { fields := fields,
          values := kwargs,
          db_values := (kwargs.filter (fun p => !(isDeferredSV p.2))).map
            (fun p => (dbNameForName fields p.1, p.2)) }
  else .error .keyError

/-- `QuerySet.get` (query.py lines 497-506): fetch the records matching
the filter; exactly one is returned, zero raises `ObjectDoesNotExist`,
more raise `MultipleObjectsReturned`. -/
def getM (store : List FeatM) (pred : FeatM → Bool) : Except GetError FeatM :=
  match store.filter pred with
  | [x] => .ok x
  | [] => .error .objectDoesNotExist
  | _ => .error .multipleObjectsReturned

/-- `QuerySet.get_or_create` (query.py lines 508-512): `get`, catching
only `ObjectDoesNotExist` to construct a new (unpersisted) record from
the filter arguments; everything else propagates.  The store is
returned untouched — no insert happens on the miss path. -/
def getOrCreateM (store : List FeatM) (pred : FeatM → Bool) (fields : List FieldM)
    (kwargs : List (String × StoreVal)) : Except GetError FeatM × List FeatM :=
  (match getM store pred with
   | .ok x => .ok x
   | .error .objectDoesNotExist => newFeature fields kwargs
   | .error e => .error e,
   store)

/-! ## Claim C10 — `get_or_create` -/

/-- C10: `get_or_create` returns the unique match when exactly one
record matches; with no match it returns a newly constructed record
whose values are exactly the filter arguments — null identity when the
identity is not among them — and the store is unchanged (no insert);
with more than one match `MultipleObjectsReturned` propagates
unchanged. -/
theorem C10_get_or_create (store : List FeatM) (pred : FeatM → Bool)
    (fields : List FieldM) (kwargs : List (String × StoreVal)) :
    (∀ x, store.filter pred = [x] →
      getOrCreateM store pred fields kwargs = (.ok x, store)) ∧
    (store.filter pred = [] →
      kwargs.all (fun p => (fields.map (fun fl => fl.name)).contains p.1) = true →
      ∃ nf, getOrCreateM store pred fields kwargs = (.ok nf, store) ∧
        nf.values = kwargs ∧ nf.fields = fields ∧
        (∀ n, n ∉ kwargs.map Prod.fst → vget nf.values n = .null)) ∧
    (2 ≤ (store.filter pred).length →
      getOrCreateM store pred fields kwargs
        = (.error .multipleObjectsReturned, store)) := by
  refine ⟨?_, ?_, ?_⟩
  · intro x hx
    simp [getOrCreateM, getM, hx]
  · intro hnil hvalid
    refine ⟨{ fields := fields, values := kwargs,
              db_values := (kwargs.filter (fun p => !(isDeferredSV p.2))).map
                (fun p => (dbNameForName fields p.1, p.2)) }, ?_, rfl, rfl, ?_⟩
    · simp only [getOrCreateM, getM, hnil, newFeature, hvalid, if_true]
    · intro n hn
      simp only [vget]
      rw [alookup_eq_none_of_not_mem_keys _ _ hn]
      rfl
  · intro hlen
    rcases hf : store.filter pred with _ | ⟨x, _ | ⟨y, rest⟩⟩
    · rw [hf] at hlen; simp at hlen
    · rw [hf] at hlen; simp at hlen
    · simp [getOrCreateM, getM, hf]

/-- Witness for C10 at a concrete store: one matching record, an empty
match with a fresh construction, and a double match. -/
theorem C10_witness :
    (([c6FeatB] : List FeatM).filter (fun f => vget f.values "widget_name" == .str "New")
      = [c6FeatB]) ∧
    getOrCreateM [c6FeatB] (fun f => vget f.values "widget_name" == .str "New")
      [c6Oid, c6Name] [("widget_name", .str "New")] = (.ok c6FeatB, [c6FeatB]) ∧
    (2 ≤ (([c6FeatB, c6FeatB] : List FeatM).filter (fun _ => true)).length ∧
      getOrCreateM [c6FeatB, c6FeatB] (fun _ => true) [c6Oid, c6Name] []
        = (.error .multipleObjectsReturned, [c6FeatB, c6FeatB])) :=
  ⟨by decide,
   (C10_get_or_create [c6FeatB] _ [c6Oid, c6Name] [("widget_name", .str "New")]).1
     c6FeatB (by decide),
   by decide,
   (C10_get_or_create [c6FeatB, c6FeatB] _ [c6Oid, c6Name] []).2.2 (by decide)⟩

/-- Witness for C9 at a concrete required field and the whitespace-only
string `"  "`. -/
theorem C9_witness :
    pyStrip "  " = "" ∧
    validateString ({ name := "s", db_name := "s", label := "String Field",
                      db_scale := none, required := true,
                      choices := [.str "a", .str "b"],
                      is_oid := false, is_fk := false } : FieldM) (.str "  ")
      = ["String Field is missing"] :=
  ⟨by decide, (C9_string_validate _ "  " (by decide)).2.1 rfl⟩

end CUUATS

namespace CUUATS

/-! ## Claim C1 (amended): idempotence of `simplify` on flat trees

The counterexample `C1_counterexample` shows `simplify` is not
idempotent in general.  It is idempotent on *flat* trees — no negation
and no relationship scopes anywhere, exactly the trees built from filter
pairs without relationship traversals combined with `&`/`|`.  The proof
goes through an invariant: `simpP q` says every `Q` child of a node
fails `_op_match` for its parent's operator (so no pairwise combination
and no parent merge can fire) and no node has a lone `Q` child (so no
unwrap can fire); `simplify` establishes the invariant on flat trees and
is the identity on trees satisfying it. -/

mutual
/-- A child no `simplify` phase can touch under parent operator `op`:
conditions, or nodes failing `_op_match` for `op` whose own children are
untouchable in turn. -/
def goodAt (op : String) : QT → Bool
  | .cond _ => true
  | .node op2 _ _ cs2 => !(op == op2) && !(cs2.lengthL == 1) && allGood op2 cs2

/-- All children untouchable under `op`. -/
def allGood (op : String) : QL → Bool
  | .nil => true
  | .cons c cs => goodAt op c && allGood op cs
end

/-- No lone `Q` child (the shape the unwrap step fires on). -/
def singletonNodeFree : QL → Bool
  | .cons (QT.node _ _ _ _) .nil => false
  | _ => true

/-- The normal form `simplify` reaches on flat trees. -/
def simpP : QT → Bool
  | .cond _ => true
  | .node op _ _ cs => allGood op cs && singletonNodeFree cs

/-- `simpP` for every entry of a children list. -/
def allSimpP : QL → Bool
  | .nil => true
  | .cons c cs => simpP c && allSimpP cs

mutual
/-- Flat trees: no negation and no relationship scope anywhere. -/
def flatQ : QT → Bool
  | .cond _ => true
  | .node _ neg rel cs => !neg && rel.isNone && flatL cs

/-- Flatness of every entry of a children list. -/
def flatL : QL → Bool
  | .nil => true
  | .cons c cs => flatQ c && flatL cs
end

/-- The parent-loop invariant for a child under operator `op`: either
untouchable, or matching the operator with all its children untouchable
(so that promoting them preserves the invariant). -/
def invAt (op : String) : QT → Bool
  | .cond _ => true
  | .node op2 neg rel cs2 =>
    goodAt op (.node op2 neg rel cs2) ||
      (opMatchQ op (.node op2 neg rel cs2) && allGood op cs2)

/-- `invAt` for every entry of a children list. -/
def invL (op : String) : QL → Bool
  | .nil => true
  | .cons c cs => invAt op c && invL op cs

/-! Basic facts about sizes, `append`, and the predicates. -/

lemma qsizeL_append : ∀ (a b : QL), qsizeL (a.append b) = qsizeL a + qsizeL b
  | .nil, b => by simp [QL.append, qsizeL]
  | .cons c cs, b => by
    simp only [QL.append, qsizeL, qsizeL_append cs b]
    omega

lemma qsize_pos (c : QT) : 1 ≤ qsize c := by
  cases c <;> simp [qsize]

lemma allGood_append (op : String) :
    ∀ (a b : QL), allGood op (a.append b) = (allGood op a && allGood op b)
  | .nil, b => by simp [QL.append, allGood]
  | .cons c cs, b => by
    simp [QL.append, allGood, allGood_append op cs b, Bool.and_assoc]

lemma flatL_append : ∀ (a b : QL), flatL (a.append b) = (flatL a && flatL b)
  | .nil, b => by simp [QL.append, flatL]
  | .cons c cs, b => by
    simp [QL.append, flatL, flatL_append cs b, Bool.and_assoc]

lemma goodAt_not_opMatch {op : String} {c : QT} (h : goodAt op c = true) :
    opMatchQ op c = false := by
  cases c with
  | cond _ => rfl
  | node op2 neg rel cs2 =>
    simp only [goodAt, Bool.and_eq_true, Bool.not_eq_true'] at h
    simp [opMatchQ, h.1.1, h.1.2]

lemma goodAt_simpP {op : String} {c : QT} (h : goodAt op c = true) :
    simpP c = true := by
  cases c with
  | cond _ => rfl
  | node op2 neg rel cs2 =>
    simp only [goodAt, Bool.and_eq_true, Bool.not_eq_true'] at h
    have hfree : singletonNodeFree cs2 = true := by
      cases cs2 with
      | nil => rfl
      | cons c2 rest =>
        cases rest with
        | nil =>
          cases c2 with
          | cond _ => rfl
          | node _ _ _ _ =>
            exfalso
            have := h.1.2
            simp [QL.lengthL] at this
        | cons _ _ => cases c2 <;> rfl
    simp [simpP, h.2, hfree]

lemma allGood_allSimpP (op : String) :
    ∀ (cs : QL), allGood op cs = true → allSimpP cs = true
  | .nil, _ => rfl
  | .cons c rest, h => by
    simp only [allGood, Bool.and_eq_true] at h
    simp [allSimpP, goodAt_simpP h.1, allGood_allSimpP op rest h.2]

lemma goodAt_invAt {op : String} {c : QT} (h : goodAt op c = true) :
    invAt op c = true := by
  cases c with
  | cond _ => rfl
  | node op2 neg rel cs2 => simp [invAt, h]

lemma allGood_invL (op : String) :
    ∀ (cs : QL), allGood op cs = true → invL op cs = true
  | .nil, _ => rfl
  | .cons c rest, h => by
    simp only [allGood, Bool.and_eq_true] at h
    simp [invL, goodAt_invAt h.1, allGood_invL op rest h.2]

lemma simpP_invAt {op : String} {c : QT} (h : simpP c = true) :
    invAt op c = true := by
  cases c with
  | cond _ => rfl
  | node op2 neg rel cs2 =>
    simp only [simpP, Bool.and_eq_true] at h
    by_cases hm : opMatchQ op (QT.node op2 neg rel cs2) = true
    · simp only [opMatchQ, Bool.or_eq_true] at hm
      have hgood : allGood op cs2 = true := by
        rcases hm with hm | hm
        · have hop : op = op2 := by simpa using hm
          rw [hop]
          exact h.1
        · cases cs2 with
          | nil => rfl
          | cons c2 rest =>
            cases rest with
            | nil =>
              cases c2 with
              | cond _ => simp [allGood, goodAt]
              | node _ _ _ _ =>
                exfalso
                have := h.2
                simp [singletonNodeFree] at this
            | cons _ _ =>
              exfalso
              simp only [QL.lengthL, beq_iff_eq] at hm
              omega
      have hmatch : opMatchQ op (QT.node op2 neg rel cs2) = true := by
        simp only [opMatchQ, Bool.or_eq_true]
        exact hm
      simp [invAt, hmatch, hgood]
    · have hg : goodAt op (QT.node op2 neg rel cs2) = true := by
        simp only [opMatchQ, Bool.or_eq_true, not_or] at hm
        push_neg at hm
        simp only [goodAt, Bool.and_eq_true, Bool.not_eq_true']
        exact ⟨⟨by simpa using hm.1, by simpa using hm.2⟩, h.1⟩
      simp [invAt, hg]

end CUUATS

namespace CUUATS

lemma invAt_om_kids {op : String} {c : QT} (hi : invAt op c = true)
    (hm : opMatchQ op c = true) : allGood op (childrenOf c) = true := by
  cases c with
  | cond _ => rfl
  | node op2 neg rel cs2 =>
    simp only [invAt, Bool.or_eq_true, Bool.and_eq_true] at hi
    rcases hi with hg | ⟨_, hk⟩
    · rw [goodAt_not_opMatch hg] at hm
      cases hm
    · exact hk

lemma simpP_not_om_good {op : String} {c : QT} (hs : simpP c = true)
    (hm : opMatchQ op c = false) : goodAt op c = true := by
  cases c with
  | cond _ => rfl
  | node op2 neg rel cs2 =>
    simp only [simpP, Bool.and_eq_true] at hs
    simp only [opMatchQ, Bool.or_eq_false_iff] at hm
    simp [goodAt, hm.1, hm.2, hs.1]

lemma flat_node_parts {op2 : String} {neg : Bool} {rel : Option String} {cs : QL}
    (h : flatQ (.node op2 neg rel cs) = true) :
    neg = false ∧ rel = none ∧ flatL cs = true := by
  simp only [flatQ, Bool.and_eq_true, Bool.not_eq_true'] at h
  exact ⟨h.1.1, Option.isNone_iff_eq_none.mp h.1.2, h.2⟩

lemma mergeOrAppend_sound {op o1 o2 : String} {g1 g2 : Bool}
    {r1 r2 : Option String} {c1 c2 : QL}
    (hfa : flatQ (.node o1 g1 r1 c1) = true) (hfb : flatQ (.node o2 g2 r2 c2) = true)
    (hsa : simpP (.node o1 g1 r1 c1) = true) (hsb : simpP (.node o2 g2 r2 c2) = true)
    {n : QT} (h : mergeOrAppend (.node o1 g1 r1 c1) (.node o2 g2 r2 c2) op = some n) :
    invAt op n = true ∧ flatQ n = true := by
  obtain ⟨hg1, hr1, hf1⟩ := flat_node_parts hfa
  obtain ⟨hg2, hr2, hf2⟩ := flat_node_parts hfb
  subst hg1; subst hr1; subst hg2; subst hr2
  have hia := @simpP_invAt op _ hsa
  have hib := @simpP_invAt op _ hsb
  have hcm : canMerge (QT.node o1 false none c1) (QT.node o2 false none c2) op
      = (opMatchQ op (QT.node o1 false none c1) && opMatchQ op (QT.node o2 false none c2)) := by
    simp [canMerge, negOf, relOf]
  have hca : canAppend (QT.node o1 false none c1) (QT.node o2 false none c2) op
      = opMatchQ op (QT.node o1 false none c1) := by
    simp [canAppend, negOf, relOf]
  have hcb : canAppend (QT.node o2 false none c2) (QT.node o1 false none c1) op
      = opMatchQ op (QT.node o2 false none c2) := by
    simp [canAppend, negOf, relOf]
  rw [mergeOrAppend, hcm, hca, hcb] at h
  cases hm1 : opMatchQ op (QT.node o1 false none c1) <;>
    cases hm2 : opMatchQ op (QT.node o2 false none c2) <;>
    rw [hm1, hm2] at h <;> simp only [Bool.and_self, Bool.and_false, Bool.false_and,
      Bool.and_true, Bool.true_and, Bool.false_eq_true, if_false, if_true] at h
  -- nothing combines: contradiction
  · cases h
  -- append a into b
  · rw [appendQ] at h
    simp only [negOf, relOf, childrenOf, Option.isSome_none, Bool.false_eq_true,
      if_false] at h
    obtain rfl := Option.some_injective _ h
    have hk2 := invAt_om_kids hib hm2
    simp only [childrenOf] at hk2
    have hga : goodAt op (QT.node o1 false none c1) = true :=
      simpP_not_om_good hsa hm1
    constructor
    · simp [invAt, opMatchQ, allGood_append, hk2, allGood, hga]
    · simp [flatQ, flatL_append, hf1, hf2, flatL, hfa]
  -- append b into a
  · rw [appendQ] at h
    simp only [negOf, relOf, childrenOf, Option.isSome_none, Bool.false_eq_true,
      if_false] at h
    obtain rfl := Option.some_injective _ h
    have hk1 := invAt_om_kids hia hm1
    simp only [childrenOf] at hk1
    have hgb : goodAt op (QT.node o2 false none c2) = true :=
      simpP_not_om_good hsb hm2
    constructor
    · simp [invAt, opMatchQ, allGood_append, hk1, allGood, hgb]
    · simp [flatQ, flatL_append, hf1, hf2, flatL, hfb]
  -- merge
  · rw [mergeQ] at h
    simp only [negOf, relOf, childrenOf] at h
    obtain rfl := Option.some_injective _ h
    have hk1 := invAt_om_kids hia hm1
    have hk2 := invAt_om_kids hib hm2
    simp only [childrenOf] at hk1 hk2
    constructor
    · simp [invAt, opMatchQ, allGood_append, hk1, hk2]
    · simp [flatQ, flatL_append, hf1, hf2]


lemma allSimpP_invL (op : String) :
    ∀ (cs : QL), allSimpP cs = true → invL op cs = true
  | .nil, _ => rfl
  | .cons c rest, h => by
    simp only [allSimpP, Bool.and_eq_true] at h
    simp [invL, simpP_invAt h.1, allSimpP_invL op rest h.2]

lemma findWith_sound (op : String) : ∀ (cs : QL) (a n : QT) (r : QL),
    flatQ a = true → simpP a = true → flatL cs = true → allSimpP cs = true →
    findWith op a cs = some (n, r) →
    invAt op n = true ∧ flatQ n = true ∧ flatL r = true ∧ allSimpP r = true
  | .nil, a, n, r, _, _, _, _, h => by cases h
  | .cons b rest, a, n, r, hfa, hsa, hfl, hsl, h => by
    simp only [flatL, Bool.and_eq_true] at hfl
    simp only [allSimpP, Bool.and_eq_true] at hsl
    cases a with
    | cond ca =>
      simp only [findWith] at h
      cases hfw : findWith op (.cond ca) rest with
      | none => simp only [hfw] at h; cases b <;> cases h
      | some p =>
        obtain ⟨n0, r0⟩ := p
        simp only [hfw] at h
        have hrec := findWith_sound op rest (.cond ca) n0 r0 hfa hsa hfl.2 hsl.2 hfw
        cases b <;>
          (obtain ⟨rfl, rfl⟩ := Prod.mk.injEq _ _ _ _ ▸ Option.some_injective _ h ;
           exact ⟨hrec.1, hrec.2.1, by simp [flatL, hfl.1, hrec.2.2.1],
             by simp [allSimpP, hsl.1, hrec.2.2.2]⟩)
    | node o1 g1 r1 c1 =>
      cases b with
      | cond cb =>
        simp only [findWith] at h
        cases hfw : findWith op (.node o1 g1 r1 c1) rest with
        | none => simp only [hfw] at h; cases h
        | some p =>
          obtain ⟨n0, r0⟩ := p
          simp only [hfw] at h
          have hrec := findWith_sound op rest (.node o1 g1 r1 c1) n0 r0 hfa hsa
            hfl.2 hsl.2 hfw
          obtain ⟨rfl, rfl⟩ := Prod.mk.injEq _ _ _ _ ▸ Option.some_injective _ h
          exact ⟨hrec.1, hrec.2.1, by simp [flatL, hfl.1, hrec.2.2.1],
            by simp [allSimpP, hsl.1, hrec.2.2.2]⟩
      | node o2 g2 r2 c2 =>
        simp only [findWith] at h
        cases hma : mergeOrAppend (.node o1 g1 r1 c1) (.node o2 g2 r2 c2) op with
        | some n0 =>
          simp only [hma] at h
          obtain ⟨rfl, rfl⟩ := Prod.mk.injEq _ _ _ _ ▸ Option.some_injective _ h
          have hmo := mergeOrAppend_sound hfa hfl.1 hsa hsl.1 hma
          exact ⟨hmo.1, hmo.2, hfl.2, hsl.2⟩
        | none =>
          simp only [hma] at h
          cases hfw : findWith op (.node o1 g1 r1 c1) rest with
          | none => simp only [hfw] at h; cases h
          | some p =>
            obtain ⟨n0, r0⟩ := p
            simp only [hfw] at h
            have hrec := findWith_sound op rest (.node o1 g1 r1 c1) n0 r0 hfa hsa
              hfl.2 hsl.2 hfw
            obtain ⟨rfl, rfl⟩ := Prod.mk.injEq _ _ _ _ ▸ Option.some_injective _ h
            exact ⟨hrec.1, hrec.2.1, by simp [flatL, hfl.1, hrec.2.2.1],
              by simp [allSimpP, hsl.1, hrec.2.2.2]⟩

lemma findCombine_sound (op : String) : ∀ (cs : QL) (n : QT) (r : QL),
    flatL cs = true → allSimpP cs = true →
    findCombine op cs = some (n, r) →
    invAt op n = true ∧ flatQ n = true ∧ flatL r = true ∧ allSimpP r = true
  | .nil, n, r, _, _, h => by cases h
  | .cons a rest, n, r, hfl, hsl, h => by
    simp only [flatL, Bool.and_eq_true] at hfl
    simp only [allSimpP, Bool.and_eq_true] at hsl
    simp only [findCombine] at h
    cases hfw : findWith op a rest with
    | some p =>
      obtain ⟨n0, r0⟩ := p
      simp only [hfw] at h
      obtain ⟨rfl, rfl⟩ := Prod.mk.injEq _ _ _ _ ▸ Option.some_injective _ h
      exact findWith_sound op rest a n0 r0 hfl.1 hsl.1 hfl.2 hsl.2 hfw
    | none =>
      simp only [hfw] at h
      cases hfc : findCombine op rest with
      | none => simp only [hfc] at h; cases h
      | some p =>
        obtain ⟨n0, r0⟩ := p
        simp only [hfc] at h
        have hrec := findCombine_sound op rest n0 r0 hfl.2 hsl.2 hfc
        obtain ⟨rfl, rfl⟩ := Prod.mk.injEq _ _ _ _ ▸ Option.some_injective _ h
        exact ⟨hrec.1, hrec.2.1, by simp [flatL, hfl.1, hrec.2.2.1],
          by simp [allSimpP, hsl.1, hrec.2.2.2]⟩


lemma invAt_not_om_good {op : String} {c : QT} (hi : invAt op c = true)
    (hm : opMatchQ op c = false) : goodAt op c = true := by
  cases c with
  | cond _ => rfl
  | node op2 neg rel cs2 =>
    simp only [invAt, Bool.or_eq_true, Bool.and_eq_true] at hi
    rcases hi with hg | ⟨hom, _⟩
    · exact hg
    · rw [hom] at hm; cases hm

lemma canMergeParent_flat {op : String} {c : QT} (hf : flatQ c = true) :
    canMergeParent op false none c = opMatchQ op c := by
  cases c with
  | cond _ => rfl
  | node op2 neg2 rel2 cs2 =>
    obtain ⟨hg, hr, _⟩ := flat_node_parts hf
    subst hg; subst hr
    simp [canMergeParent, opMatchQ]

lemma passKept_good (op : String) : ∀ (cs : QL), invL op cs = true →
    flatL cs = true → allGood op (passKept op false none cs) = true
  | .nil, _, _ => rfl
  | .cons c rest, hi, hf => by
    simp only [invL, Bool.and_eq_true] at hi
    simp only [flatL, Bool.and_eq_true] at hf
    rw [passKept, canMergeParent_flat hf.1]
    cases hm : opMatchQ op c with
    | true => simp [passKept_good op rest hi.2 hf.2]
    | false =>
      simp [allGood, invAt_not_om_good hi.1 hm, passKept_good op rest hi.2 hf.2]

lemma passKept_flat (op : String) : ∀ (cs : QL),
    flatL cs = true → flatL (passKept op false none cs) = true
  | .nil, _ => rfl
  | .cons c rest, hf => by
    simp only [flatL, Bool.and_eq_true] at hf
    rw [passKept]
    cases hm : canMergeParent op false none c with
    | true => simp [passKept_flat op rest hf.2]
    | false => simp [flatL, hf.1, passKept_flat op rest hf.2]

lemma passPromoted_good (op : String) : ∀ (cs : QL), invL op cs = true →
    flatL cs = true → allGood op (passPromoted op false none cs) = true
  | .nil, _, _ => rfl
  | .cons c rest, hi, hf => by
    simp only [invL, Bool.and_eq_true] at hi
    simp only [flatL, Bool.and_eq_true] at hf
    rw [passPromoted, canMergeParent_flat hf.1]
    cases hm : opMatchQ op c with
    | true =>
      simp [allGood_append, invAt_om_kids hi.1 hm,
        passPromoted_good op rest hi.2 hf.2]
    | false => simp [passPromoted_good op rest hi.2 hf.2]

lemma passPromoted_flat (op : String) : ∀ (cs : QL),
    flatL cs = true → flatL (passPromoted op false none cs) = true
  | .nil, _ => rfl
  | .cons c rest, hf => by
    simp only [flatL, Bool.and_eq_true] at hf
    rw [passPromoted]
    cases hm : canMergeParent op false none c with
    | true =>
      have hck : flatL (childrenOf c) = true := by
        cases c with
        | cond _ => cases hm
        | node o2 g2 r2 c2 =>
          exact (flat_node_parts hf.1).2.2
      simp [flatL_append, hck, passPromoted_flat op rest hf.2]
    | false => simp [passPromoted_flat op rest hf.2]

lemma pass_size_le (op : String) (neg : Bool) (rel : Option String) :
    ∀ (cs : QL),
      qsizeL ((passKept op neg rel cs).append (passPromoted op neg rel cs))
        ≤ qsizeL cs
  | .nil => by simp [passKept, passPromoted, QL.append, qsizeL]
  | .cons c rest => by
    have ih := pass_size_le op neg rel rest
    rw [qsizeL_append] at ih ⊢
    rw [passKept, passPromoted]
    cases hm : canMergeParent op neg rel c with
    | true =>
      cases c with
      | cond _ => cases hm
      | node o2 g2 r2 c2 =>
        simp only [childrenOf, qsizeL_append, qsizeL, qsize, reduceIte]
        omega
    | false =>
      simp only [qsizeL, Bool.false_eq_true, if_false, reduceIte]
      omega

lemma pass_size_lt (op : String) (neg : Bool) (rel : Option String) :
    ∀ (cs : QL), anyMergeable op neg rel cs = true →
      qsizeL ((passKept op neg rel cs).append (passPromoted op neg rel cs))
        < qsizeL cs
  | .cons c rest, h => by
    rw [anyMergeable] at h
    rw [qsizeL_append, passKept, passPromoted]
    cases hm : canMergeParent op neg rel c with
    | true =>
      have hle := pass_size_le op neg rel rest
      rw [qsizeL_append] at hle
      cases c with
      | cond _ => cases hm
      | node o2 g2 r2 c2 =>
        simp only [childrenOf, qsizeL_append, qsizeL, qsize, reduceIte]
        omega
    | false =>
      rw [hm] at h
      simp only [Bool.false_or] at h
      have hlt := pass_size_lt op neg rel rest h
      rw [qsizeL_append] at hlt
      simp only [qsizeL, Bool.false_eq_true, if_false, reduceIte]
      omega

lemma pass_nomerge (op : String) (neg : Bool) (rel : Option String) :
    ∀ (cs : QL), anyMergeable op neg rel cs = false →
      passKept op neg rel cs = cs ∧ passPromoted op neg rel cs = .nil
  | .nil, _ => ⟨rfl, rfl⟩
  | .cons c rest, h => by
    rw [anyMergeable, Bool.or_eq_false_iff] at h
    have ih := pass_nomerge op neg rel rest h.2
    rw [passKept, passPromoted, h.1]
    simp [ih.1, ih.2]

lemma QL.append_nil : ∀ (a : QL), a.append .nil = a
  | .nil => rfl
  | .cons c cs => by rw [QL.append, QL.append_nil cs]


lemma parentLoopF_flat_sound : ∀ (fuel : Nat) (op : String) (cs : QL),
    invL op cs = true → flatL cs = true → 1 + qsizeL cs ≤ fuel →
    simpP (parentLoopF fuel op false none cs) = true ∧
      flatQ (parentLoopF fuel op false none cs) = true := by
  intro fuel
  induction fuel with
  | zero => intro op cs _ _ hle; omega
  | succ fuel ih =>
    intro op cs hinv hflat hle
    have hga : allGood op
        ((passKept op false none cs).append (passPromoted op false none cs))
        = true := by
      rw [allGood_append]
      simp [passKept_good op cs hinv hflat, passPromoted_good op cs hinv hflat]
    have hfa : flatL
        ((passKept op false none cs).append (passPromoted op false none cs))
        = true := by
      rw [flatL_append]
      simp [passKept_flat op cs hflat, passPromoted_flat op cs hflat]
    have hsz := pass_size_le op false none cs
    rw [parentLoopF]
    rcases hshape : (passKept op false none cs).append (passPromoted op false none cs)
      with _ | ⟨c1, rest1⟩
    · -- cs' = nil
      rw [hshape] at hga hfa hsz
      by_cases hd : anyMergeable op false none cs = true
      · have hst := pass_size_lt op false none cs hd
        rw [hshape] at hst
        simp only [qsizeL] at hst
        simp only [hd, if_true]
        exact ih op .nil rfl rfl (by simp only [qsizeL]; omega)
      · rw [(by simpa using hd : anyMergeable op false none cs = false)]
        simp [simpP, allGood, singletonNodeFree, flatQ, flatL]
    · -- cs' = cons c1 rest1
      rw [hshape] at hga hfa hsz
      cases c1 with
      | node o2 g2 r2 c2 =>
        cases rest1 with
        | nil =>
          -- the unwrap arm
          simp only [Bool.not_false, Bool.true_and, reduceIte]
          simp only [flatL, Bool.and_eq_true] at hfa
          obtain ⟨hg2, hr2, hf2⟩ := flat_node_parts hfa.1
          subst hg2; subst hr2
          simp only [allGood, Bool.and_eq_true] at hga
          have hgood2 : allGood o2 c2 = true := by
            have := hga.1
            simp only [goodAt, Bool.and_eq_true] at this
            exact this.2
          simp only [qsizeL, qsize] at hsz
          exact ih o2 c2 (allGood_invL o2 c2 hgood2) hf2 (by omega)
        | cons c2' rest2 =>
          by_cases hd : anyMergeable op false none cs = true
          · have hst := pass_size_lt op false none cs hd
            rw [hshape] at hst
            simp only [hd, if_true]
            exact ih op (.cons (.node o2 g2 r2 c2) (.cons c2' rest2))
              (allGood_invL op _ hga) hfa (by omega)
          · rw [(by simpa using hd : anyMergeable op false none cs = false)]
            simp only [Bool.false_eq_true, if_false]
            constructor
            · simp [simpP, hga, singletonNodeFree]
            · simp [flatQ, hfa]
      | cond cc =>
        by_cases hd : anyMergeable op false none cs = true
        · have hst := pass_size_lt op false none cs hd
          rw [hshape] at hst
          simp only [hd, if_true]
          exact ih op (.cons (.cond cc) rest1) (allGood_invL op _ hga) hfa
            (by omega)
        · rw [(by simpa using hd : anyMergeable op false none cs = false)]
          simp only [Bool.false_eq_true, if_false]
          constructor
          · have hsf : singletonNodeFree (QL.cons (QT.cond cc) rest1) = true := by
              cases rest1 <;> rfl
            simp [simpP, hga, hsf]
          · simp [flatQ, hfa]


lemma anyMergeable_false_of_allGood (op : String) (neg : Bool)
    (rel : Option String) : ∀ (cs : QL), allGood op cs = true →
    anyMergeable op neg rel cs = false
  | .nil, _ => rfl
  | .cons c rest, h => by
    simp only [allGood, Bool.and_eq_true] at h
    have hc : canMergeParent op neg rel c = false := by
      cases c with
      | cond _ => rfl
      | node o2 g2 r2 c2 =>
        have hgd := h.1
        simp only [goodAt, Bool.and_eq_true, Bool.not_eq_true'] at hgd
        simp [canMergeParent, hgd.1.1, hgd.1.2]
    simp [anyMergeable, hc, anyMergeable_false_of_allGood op neg rel rest h.2]

lemma parentLoopF_fixed (fuel : Nat) (op : String) (neg : Bool)
    (rel : Option String) (cs : QL) (hg : allGood op cs = true)
    (hs : singletonNodeFree cs = true) :
    parentLoopF (fuel + 1) op neg rel cs = .node op neg rel cs := by
  have hd := anyMergeable_false_of_allGood op neg rel cs hg
  obtain ⟨hk, hp⟩ := pass_nomerge op neg rel cs hd
  rw [parentLoopF]
  simp only [hd, hk, hp, QL.append_nil]
  cases cs with
  | nil => simp
  | cons c rest =>
    cases c with
    | cond _ => cases rest <;> simp
    | node o2 g2 r2 c2 =>
      cases rest with
      | nil => simp [singletonNodeFree] at hs
      | cons _ _ => simp

lemma mergeOrAppend_none {op : String} {a b : QT}
    (ha : opMatchQ op a = false) (hb : opMatchQ op b = false) :
    mergeOrAppend a b op = none := by
  rw [mergeOrAppend]
  simp [canMerge, canAppend, ha, hb]

lemma findWith_none (op : String) : ∀ (cs : QL) (a : QT),
    opMatchQ op a = false → allGood op cs = true → findWith op a cs = none
  | .nil, a, _, _ => rfl
  | .cons b rest, a, ha, hg => by
    simp only [allGood, Bool.and_eq_true] at hg
    have hb := goodAt_not_opMatch hg.1
    have hrec := findWith_none op rest a ha hg.2
    cases a with
    | cond ca => cases b <;> simp [findWith, hrec]
    | node o1 g1 r1 c1 =>
      cases b with
      | cond cb => simp [findWith, hrec]
      | node o2 g2 r2 c2 =>
        simp [findWith, mergeOrAppend_none ha hb, hrec]

lemma findCombine_none (op : String) : ∀ (cs : QL),
    allGood op cs = true → findCombine op cs = none
  | .nil, _ => rfl
  | .cons a rest, h => by
    simp only [allGood, Bool.and_eq_true] at h
    simp [findCombine, findWith_none op rest a (goodAt_not_opMatch h.1) h.2,
      findCombine_none op rest h.2]

mutual
lemma simplify_fixed : ∀ (q : QT), simpP q = true → simplify q = q
  | .cond _, _ => rfl
  | .node op neg rel cs, h => by
    simp only [simpP, Bool.and_eq_true] at h
    have hl : simplifyL cs = cs :=
      simplifyL_fixed cs (allGood_allSimpP op cs h.1)
    rw [simplify]
    simp only [hl, findCombine_none op cs h.1]
    rw [parentLoop]
    rw [(by omega : 1 + qsizeL cs = qsizeL cs + 1)]
    exact parentLoopF_fixed (qsizeL cs) op neg rel cs h.1 h.2

lemma simplifyL_fixed : ∀ (cs : QL), allSimpP cs = true → simplifyL cs = cs
  | .nil, _ => rfl
  | .cons c rest, h => by
    simp only [allSimpP, Bool.and_eq_true] at h
    rw [simplifyL, simplify_fixed c h.1, simplifyL_fixed rest h.2]
end

mutual
lemma simplify_flat_sound : ∀ (q : QT), flatQ q = true →
    simpP (simplify q) = true ∧ flatQ (simplify q) = true
  | .cond _, _ => ⟨rfl, rfl⟩
  | .node op neg rel cs, h => by
    obtain ⟨hg, hr, hf⟩ := flat_node_parts h
    subst hg; subst hr
    have hcs1 := simplifyL_flat_sound cs hf
    rw [simplify]
    cases hfc : findCombine op (simplifyL cs) with
    | none =>
      simp only [hfc]
      rw [parentLoop]
      exact parentLoopF_flat_sound _ op _
        (allSimpP_invL op _ hcs1.2) hcs1.1 (le_refl _)
    | some p =>
      obtain ⟨n, r⟩ := p
      have hsd := findCombine_sound op (simplifyL cs) n r hcs1.1 hcs1.2 hfc
      simp only [hfc]
      rw [parentLoop]
      refine parentLoopF_flat_sound _ op _ ?_ ?_ (le_refl _)
      · simp [invL, hsd.1, allSimpP_invL op r hsd.2.2.2]
      · simp [flatL, hsd.2.1, hsd.2.2.1]

lemma simplifyL_flat_sound : ∀ (cs : QL), flatL cs = true →
    flatL (simplifyL cs) = true ∧ allSimpP (simplifyL cs) = true
  | .nil, _ => ⟨rfl, rfl⟩
  | .cons c rest, h => by
    simp only [flatL, Bool.and_eq_true] at h
    have hc := simplify_flat_sound c h.1
    have hrest := simplifyL_flat_sound rest h.2
    rw [simplifyL]
    exact ⟨by simp [flatL, hc.2, hrest.1], by simp [allSimpP, hc.1, hrest.2]⟩
end


/-- **C1 (amended).** `Q.simplify` is idempotent on flat condition
trees — those built from filter pairs without relationship traversals
and the combinators `&`/`|` (no negation, no relationship scopes
anywhere): applying `simplify` twice gives the same tree as applying it
once.  (`C1_counterexample` shows the original unconditional idempotence
claim fails once relationship scopes are involved.) -/
theorem C1_simplify_idempotent_flat (q : QT) (h : flatQ q = true) :
    simplify (simplify q) = simplify q :=
  simplify_fixed (simplify q) (simplify_flat_sound q h).1

/-- Witness for C1 at the flat tree `(Q(a=1) | Q(b=2)) & Q(c=3)`. -/
theorem C1_witness :
    flatQ (qand (qor (mkQ [("a", .vint 1)]) (mkQ [("b", .vint 2)]))
        (mkQ [("c", .vint 3)])) = true ∧
    simplify (simplify (qand (qor (mkQ [("a", .vint 1)]) (mkQ [("b", .vint 2)]))
        (mkQ [("c", .vint 3)])))
      = simplify (qand (qor (mkQ [("a", .vint 1)]) (mkQ [("b", .vint 2)]))
        (mkQ [("c", .vint 3)])) :=
  ⟨by decide,
   C1_simplify_idempotent_flat
     (qand (qor (mkQ [("a", .vint 1)]) (mkQ [("b", .vint 2)]))
       (mkQ [("c", .vint 3)])) (by decide)⟩

end CUUATS
